import Mathlib

/-!
# Verification of the cantools signal codec engine

A shallow embedding of the signal codec in `src/signals.rs` (together with
its helpers in `src/mask.rs`, `src/endian.rs`, `src/data.rs`, `src/decode.rs`
and `src/encode.rs`) and proofs about it.

Modelling conventions:
* Byte buffers are `List ℕ` whose entries are below 256 (`ByteWF`); `dlc` is
  the list length, matching the `CANData` invariant `dlc() == data().len()`.
* `u16`/`usize` index arithmetic is modelled over `ℕ`.  All index quantities
  in the claims stay far below `2 ^ 16`, the region where the Rust debug and
  release builds agree with plain natural-number arithmetic.  Where an
  overflow or underflow is reachable, the model follows the release-build
  (wrapping) semantics and says so at the definition; the corresponding
  debug-build panic (notably the `length - 1` underflow of `u64::mask(0, 0)`,
  reached from `Signed::max` on descriptors of length 1) is outside the
  model.
* `f64` scaling arithmetic (`factor`, `offset`, values) is modelled over `ℚ`
  with exact arithmetic; the specification itself only speaks about results
  "within floating-point scaling tolerance", and every concrete scenario in
  the spec is exact in both models.  Rust float-to-integer casts saturate,
  which `toU64`/`toI64` reproduce.
* `i64` values are modelled by their two's-complement bit pattern (a natural
  number below `2 ^ 64`); `i64OfPat` converts a pattern to the mathematical
  integer it denotes and `patOfInt` wraps an integer to its pattern, making
  every wrap-around of the Rust code explicit.
* A `Result` is an `Except`; the `.unwrap()` calls inside the encode loops
  are modelled by `Option`, with `none` (surfaced as
  `EncodeResult.unwrapFailure`) standing for the panic.
-/

namespace Cantools

/-- Endianness tag (src/endian.rs). -/
inductive Endian
  | Little
  | Big
deriving DecidableEq, Repr

/-- Construction-time length errors (src/signals.rs `LengthError`). -/
inductive LengthError
  | LengthZero
  | LengthGreater64
deriving DecidableEq, Repr

/-- Decode errors (src/decode.rs `DecodeError`). -/
inductive DecodeError
  | NotEnoughData
deriving DecidableEq, Repr

/-- Encode errors (src/encode.rs `EncodeError`). -/
inductive EncodeError
  | NotEnoughData
  | MinError
  | MaxError
deriving DecidableEq, Repr

/-- Accumulator loop of `Mask::mask` for `u64` (src/mask.rs): rounds of
`result += 1; result <<= 1`, where the shift discards bits past bit 63, so
each round acts modulo `2 ^ 64` (the `+= 1` itself never overflows: the
accumulator is always even). -/
def maskLoop : ℕ → ℕ → ℕ
  | 0, r => r
  | n + 1, r => maskLoop n (((r + 1) <<< 1) % 2 ^ 64)

/-- `Mask::mask` for `u64` (src/mask.rs): the loop runs over
`0..(length - 1)` with the bound computed in `u16` arithmetic, so
`length = 0` wraps around to `65535` rounds (the release-build behaviour of
the underflowing subtraction; a debug build panics on it instead), driving
the accumulator to its all-ones fixed point.  `length = 0` is reachable:
`Signed::max` calls `u64::mask(self.length - 1, 0)` on a descriptor of
length 1.  The final shift also discards bits past bit 63. -/
def mask (length shift : ℕ) : ℕ :=
  ((maskLoop ((length + 65535) % 65536) 0 + 1) <<< shift) % 2 ^ 64

/-- Byte access `data.data()[i]` / `data.data().get(i)` with the out-of-range
default 0 used by the decode slice loops. -/
def byteAt (data : List ℕ) (i : ℕ) : ℕ := data.getD i 0

/-- Well-formed byte buffer: every entry is an actual byte. -/
def ByteWF (data : List ℕ) : Prop := ∀ b ∈ data, b < 256

instance (data : List ℕ) : Decidable (ByteWF data) :=
  inferInstanceAs (Decidable (∀ b ∈ data, b < 256))

/-- Bit `pos` of the buffer viewed as a bit stream: bit `pos % 8` of byte
`pos / 8`. -/
def bufBit (data : List ℕ) (pos : ℕ) : Bool := (byteAt data (pos / 8)).testBit (pos % 8)

/-- Little-endian interpretation of the `n` bytes starting at index `sb`,
exactly the `u64::from_le_bytes(slice)` value produced by the decode slice
loops (missing bytes read as 0). -/
def bytesLE (data : List ℕ) (sb : ℕ) : ℕ → ℕ
  | 0 => 0
  | n + 1 => byteAt data sb + 256 * bytesLE data (sb + 1) n

/-- Byte-reversed (big-endian) interpretation of the `n` bytes starting at
index `sb`: the `u64::from_le_bytes(slice)` value after the
`slice[min_data-i-1] = data[byte_index]` loop of the `Endian::Big` arms. -/
def bytesBE (data : List ℕ) (sb : ℕ) : ℕ → ℕ
  | 0 => 0
  | n + 1 => byteAt data sb * 2 ^ (8 * n) + bytesBE data (sb + 1) n

/-- Two's-complement reading of a 64-bit pattern (`i64` reinterpretation of a
`u64` bit pattern). -/
def i64OfPat (p : ℕ) : ℤ := if p < 2 ^ 63 then (p : ℤ) else (p : ℤ) - 2 ^ 64

/-- 64-bit pattern of an integer (wrap-around of `i64` arithmetic). -/
def patOfInt (z : ℤ) : ℕ := (z % 2 ^ 64).toNat

/-- Saturating `f64 → u64` cast (`value.trunc() as u64`), applied to the
already-truncated integer. -/
def toU64 (z : ℤ) : ℕ :=
  if z < 0 then 0 else if (2 ^ 64 - 1 : ℤ) < z then 2 ^ 64 - 1 else z.toNat

/-- Saturating `f64 → i64` cast (`value.trunc() as i64`), applied to the
already-truncated integer. -/
def toI64 (z : ℤ) : ℤ :=
  if z < -(2 ^ 63) then -(2 ^ 63) else if (2 ^ 63 - 1 : ℤ) < z then 2 ^ 63 - 1 else z

/-- `f64::trunc` on an exact rational: rounding toward zero. -/
def ratTrunc (q : ℚ) : ℤ := if 0 ≤ q then ⌊q⌋ else ⌈q⌉

/-- Arithmetic right shift of a 64-bit pattern by `s ≤ 7` places (`>>=` on
`i64`): the sign bit is replicated into the vacated high bits. -/
def asrPat (p s : ℕ) : ℕ :=
  if p.testBit 63 then (p >>> s) + (2 ^ 64 - 2 ^ (64 - s)) else p >>> s

/-- Single-bit signal (src/signals.rs `Bit`). -/
structure Bit where
  start : ℕ
deriving DecidableEq, Repr

/-- `Bit::new`. -/
def Bit.new (start : ℕ) : Bit := ⟨start⟩

/-- `impl TryDecode<bool> for Bit` (src/signals.rs lines 56-76).  The error
type of this implementation is `()`. -/
def Bit.tryDecode (sig : Bit) (data : List ℕ) : Except Unit Bool :=
  if sig.start ≥ 8 * data.length then .error ()
  else
    let startByte := sig.start / 8
    let bitInStartByte := sig.start % 8
    let byte := (byteAt data startByte >>> bitInStartByte) &&& 1
    if byte ≠ 0 then .ok true else .ok false

/-- `impl TryEncode<bool> for Bit` (src/signals.rs lines 81-105): set the bit
via OR with `u8::mask(1, start % 8)` or clear it via AND with the bitwise
complement of that mask (`!m` on `u8` is `255 ^^^ m`). -/
def Bit.tryEncode (sig : Bit) (data : List ℕ) (value : Bool) : Except EncodeError (List ℕ) :=
  let startBitInByte := sig.start % 8
  let startByte := sig.start / 8
  if startByte ≥ data.length then .error .NotEnoughData
  else
    match value with
    | true => .ok (data.set startByte (byteAt data startByte ||| mask 1 startBitInByte))
    | false => .ok (data.set startByte (byteAt data startByte &&& (255 ^^^ mask 1 startBitInByte)))

/-- Unsigned integer signal descriptor (src/signals.rs `Unsigned`). -/
structure Unsigned where
  start : ℕ
  length : ℕ
  factor : ℚ
  offset : ℚ
  endian : Endian
deriving DecidableEq, Repr

/-- `Unsigned::new` (src/signals.rs lines 127-143). -/
def Unsigned.new (start length : ℕ) (factor offset : ℚ) (endian : Endian) :
    Except LengthError Unsigned :=
  if length = 0 then .error .LengthZero
  else if length > 64 then .error .LengthGreater64
  else .ok ⟨start, length, factor, offset, endian⟩

/-- `impl Min for Unsigned` (src/signals.rs lines 158-164). -/
def Unsigned.min (sig : Unsigned) : ℚ := sig.offset

/-- `impl Max for Unsigned` (src/signals.rs lines 166-175):
`u64::mask(length, 0) as f64 * factor + offset`. -/
def Unsigned.max (sig : Unsigned) : ℚ := (mask sig.length 0 : ℚ) * sig.factor + sig.offset

/-- `impl TryDecode<f64> for Unsigned` (src/signals.rs lines 177-250).  The
slice loops keep at most 8 bytes of the byte span (the `*i < 8` filter and
`min(8, s.len())`), reassembled little-endian (`Little`) or byte-reversed
(`Big`), then shift and mask on `u64`. -/
def Unsigned.tryDecode (sig : Unsigned) (data : List ℕ) : Except DecodeError ℚ :=
  match sig.endian with
  | .Little =>
    if sig.start + sig.length > 8 * data.length then .error .NotEnoughData
    else
      let startByte := sig.start / 8
      let bitInStartByte := sig.start % 8
      let endByte := (sig.start + sig.length - 1) / 8
      let n := Min.min 8 (endByte - startByte + 1)
      let converted := (bytesLE data startByte n >>> bitInStartByte) &&& mask sig.length 0
      .ok ((converted : ℚ) * sig.factor + sig.offset)
  | .Big =>
    if 8 * data.length < (7 - sig.start % 8) + 8 * (sig.start / 8) + sig.length then
      .error .NotEnoughData
    else
      let startByte := sig.start / 8
      let endByte := ((7 - sig.start % 8) + 8 * (sig.start / 8) + sig.length - 1) / 8
      let n := Min.min 8 (endByte - startByte + 1)
      let converted := (bytesBE data startByte n >>> (7 - sig.start % 8)) &&& mask sig.length 0
      .ok ((converted : ℚ) * sig.factor + sig.offset)

/-- Result of a `try_encode` call; `unwrapFailure` marks the panic of the
`bit.try_encode(data, _).unwrap()` calls inside the write loops. -/
inductive EncodeResult
  | ok (d : List ℕ)
  | err (e : EncodeError)
  | unwrapFailure
deriving DecidableEq, Repr

/-- Whether an encode call returned `Ok`. -/
def EncodeResult.isOk : EncodeResult → Bool
  | .ok _ => true
  | _ => false

/-- The `start` update of the `Endian::Big` write loops: walk down within a
byte, then jump to bit 7 of the next byte. -/
def nextBigPos (p : ℕ) : ℕ := if p % 8 = 0 then (p / 8 + 1) * 8 + 7 else p - 1

/-- The `Endian::Little` write loop (`for i in 0..length`, src/signals.rs
lines 280-290): write bit `start + i` from the low bit of `value`, shifting
`value` right each round.  `none` is the `unwrap` panic. -/
def writeBitsLittle : ℕ → ℕ → ℕ → List ℕ → Option (List ℕ)
  | _, _, 0, data => some data
  | start, value, len + 1, data =>
    let bit := Bit.new start
    match (if value &&& 1 = 0 then bit.tryEncode data false else bit.tryEncode data true) with
    | .error _ => none
    | .ok d => writeBitsLittle (start + 1) (value >>> 1) len d

/-- The `Endian::Big` write loop (src/signals.rs lines 307-323): at the step
with `r + 1` bits remaining the source shift `length - 1 - i` equals `r`. -/
def writeBitsBig : ℕ → ℕ → ℕ → List ℕ → Option (List ℕ)
  | _, 0, _, data => some data
  | value, r + 1, p, data =>
    let bit := Bit.new p
    match (if (value >>> r) &&& 1 = 0 then bit.tryEncode data false else bit.tryEncode data true) with
    | .error _ => none
    | .ok d => writeBitsBig value r (nextBigPos p) d

/-- Raw pattern computed by `Unsigned::try_encode` before the write loop:
`(((value - offset) / factor).trunc() as u64) & u64::mask(length, 0)`. -/
def unsignedRawPat (sig : Unsigned) (value : ℚ) : ℕ :=
  toU64 (ratTrunc ((value - sig.offset) / sig.factor)) &&& mask sig.length 0

/-- `impl TryEncode<f64> for Unsigned` (src/signals.rs lines 255-329). -/
def Unsigned.tryEncode (sig : Unsigned) (data : List ℕ) (value : ℚ) : EncodeResult :=
  if value < sig.min then .err .MinError
  else if value > sig.max then .err .MaxError
  else
    match sig.endian with
    | .Little =>
      if sig.start + sig.length > 8 * data.length then .err .NotEnoughData
      else
        match writeBitsLittle sig.start (unsignedRawPat sig value) sig.length data with
        | none => .unwrapFailure
        | some d => .ok d
    | .Big =>
      if 8 * data.length < (7 - sig.start % 8) + 8 * (sig.start / 8) + sig.length then
        .err .NotEnoughData
      else
        match writeBitsBig (unsignedRawPat sig value) sig.length sig.start data with
        | none => .unwrapFailure
        | some d => .ok d

/-- Signed integer signal descriptor (src/signals.rs `Signed`). -/
structure Signed where
  start : ℕ
  length : ℕ
  factor : ℚ
  offset : ℚ
  endian : Endian
deriving DecidableEq, Repr

/-- `Signed::new` (src/signals.rs lines 352-368). -/
def Signed.new (start length : ℕ) (factor offset : ℚ) (endian : Endian) :
    Except LengthError Signed :=
  if length = 0 then .error .LengthZero
  else if length > 64 then .error .LengthGreater64
  else .ok ⟨start, length, factor, offset, endian⟩

/-- `impl Min for Signed` (src/signals.rs lines 383-392):
`i64::mask(64 - length + 1, length - 1) as f64 * factor + offset`. -/
def Signed.min (sig : Signed) : ℚ :=
  (i64OfPat (mask (64 - sig.length + 1) (sig.length - 1)) : ℚ) * sig.factor + sig.offset

/-- `impl Max for Signed` (src/signals.rs lines 394-403):
`u64::mask(length - 1, 0) as f64 * factor + offset`. -/
def Signed.max (sig : Signed) : ℚ := (mask (sig.length - 1) 0 : ℚ) * sig.factor + sig.offset

/-- Raw length-bit pattern extracted by `Signed::try_decode` in the
`Endian::Little` arm before sign extension: `i64::from_le_bytes(slice)`
arithmetically shifted by `start % 8` and masked with
`i64::mask(length, 0)`. -/
def Signed.rawLittle (sig : Signed) (data : List ℕ) : ℕ :=
  let startByte := sig.start / 8
  let endByte := (sig.start + sig.length - 1) / 8
  let n := Min.min 8 (endByte - startByte + 1)
  asrPat (bytesLE data startByte n) (sig.start % 8) &&& mask sig.length 0

/-- Raw length-bit pattern extracted by `Signed::try_decode` in the
`Endian::Big` arm before sign extension. -/
def Signed.rawBig (sig : Signed) (data : List ℕ) : ℕ :=
  let startByte := sig.start / 8
  let endByte := ((7 - sig.start % 8) + 8 * (sig.start / 8) + sig.length - 1) / 8
  let n := Min.min 8 (endByte - startByte + 1)
  asrPat (bytesBE data startByte n) (7 - sig.start % 8) &&& mask sig.length 0

/-- Sign-extension step of `Signed::try_decode` (src/signals.rs lines
436-438 and 475-477): if the sign bit `i64::mask(1, length - 1)` is set, add
the complement `!i64::mask(length, 0)` (an `i64` addition, i.e. modulo
`2 ^ 64` on patterns). -/
def signExtendPat (length c : ℕ) : ℕ :=
  if c &&& mask 1 (length - 1) ≠ 0
  then (c + ((2 ^ 64 - 1) ^^^ mask length 0)) % 2 ^ 64
  else c

/-- `impl TryDecode<f64> for Signed` (src/signals.rs lines 405-486). -/
def Signed.tryDecode (sig : Signed) (data : List ℕ) : Except DecodeError ℚ :=
  match sig.endian with
  | .Little =>
    if sig.start + sig.length > 8 * data.length then .error .NotEnoughData
    else
      let c3 := signExtendPat sig.length (sig.rawLittle data)
      .ok ((i64OfPat c3 : ℚ) * sig.factor + sig.offset)
  | .Big =>
    if 8 * data.length < (7 - sig.start % 8) + 8 * (sig.start / 8) + sig.length then
      .error .NotEnoughData
    else
      let c3 := signExtendPat sig.length (sig.rawBig data)
      .ok ((i64OfPat c3 : ℚ) * sig.factor + sig.offset)

/-- Raw pattern computed by `Signed::try_encode` before the write loop
(src/signals.rs lines 509-518 and 540-549): truncate, cast to `i64`, on a
negative value subtract `!i64::mask(length, 0)`, then mask with
`i64::mask(length, 0)` (pattern-level AND). -/
def signedRawPat (sig : Signed) (value : ℚ) : ℕ :=
  let v2 := toI64 (ratTrunc ((value - sig.offset) / sig.factor))
  let v3 := if v2 < 0 then v2 - i64OfPat ((2 ^ 64 - 1) ^^^ mask sig.length 0) else v2
  patOfInt v3 &&& mask sig.length 0

/-- `impl TryEncode<f64> for Signed` (src/signals.rs lines 491-574). -/
def Signed.tryEncode (sig : Signed) (data : List ℕ) (value : ℚ) : EncodeResult :=
  if value < sig.min then .err .MinError
  else if value > sig.max then .err .MaxError
  else
    match sig.endian with
    | .Little =>
      if sig.start + sig.length > 8 * data.length then .err .NotEnoughData
      else
        match writeBitsLittle sig.start (signedRawPat sig value) sig.length data with
        | none => .unwrapFailure
        | some d => .ok d
    | .Big =>
      if 8 * data.length < (7 - sig.start % 8) + 8 * (sig.start / 8) + sig.length then
        .err .NotEnoughData
      else
        match writeBitsBig (signedRawPat sig value) sig.length sig.start data with
        | none => .unwrapFailure
        | some d => .ok d

/-- Availability of a `Little` signal span (§4.3): the check
`start + length > 8 * dlc` does not fire. -/
def availLittle (start length dlc : ℕ) : Prop := start + length ≤ 8 * dlc

/-- Availability of a `Big` signal span (§4.3): the canonical end position
stays inside the buffer, i.e. `8*dlc - ((7 - start%8) + 8*(start/8)) - length`
is not negative. -/
def availBig (start length dlc : ℕ) : Prop :=
  (7 - start % 8) + 8 * (start / 8) + length ≤ 8 * dlc

/-- Availability for either endianness. -/
def avail (e : Endian) (start length dlc : ℕ) : Prop :=
  match e with
  | .Little => availLittle start length dlc
  | .Big => availBig start length dlc

/-- Canonical bit position of the big-endian ("Motorola") numbering: within a
byte, bit 7 is most significant (§4.3). -/
def canon (p : ℕ) : ℕ := 8 * (p / 8) + (7 - p % 8)

/-- Bit span occupied by a `Little` signal: absolute bit indices
`start .. start+length-1`. -/
def spanLittle (start length pos : ℕ) : Prop := start ≤ pos ∧ pos < start + length

/-- Bit span occupied by a `Big` signal: the `length` positions whose
canonical bit positions follow `canon start`. -/
def spanBig (start length pos : ℕ) : Prop :=
  canon start ≤ canon pos ∧ canon pos < canon start + length

/-- Reference little-endian extraction, written from the claim wording: the
bytes `start/8 .. (start+length-1)/8` inclusive interpreted in increasing
byte order as a little-endian integer, shifted right by `start % 8`, masked
to `length` bits. -/
def refExtractLittle (start length : ℕ) (data : List ℕ) : ℕ :=
  (bytesLE data (start / 8) ((start + length - 1) / 8 - start / 8 + 1) >>> (start % 8))
    &&& (2 ^ length - 1)

/-! ## Arithmetic facts about the helper functions -/

/-- Closed form of the mask loop while no round wraps. -/
theorem maskLoop_eq {n : ℕ} : ∀ r, (r + 2) * 2 ^ n ≤ 2 ^ 64 →
    maskLoop n r = (r + 2) * 2 ^ n - 2 := by
  induction n with
  | zero =>
    intro r _
    simp [maskLoop]
  | succ n ih =>
    intro r h
    have hpow : (r + 2) * 2 ^ (n + 1) = (2 * r + 2 + 2) * 2 ^ n := by ring
    have hp2 : (2 : ℕ) ≤ 2 ^ (n + 1) := by
      calc (2 : ℕ) = 2 ^ 1 := by norm_num
        _ ≤ 2 ^ (n + 1) := Nat.pow_le_pow_right (by norm_num) (by omega)
    have hr2 : 2 * r + 2 < 2 ^ 64 := by nlinarith
    have hstep : ((r + 1) <<< 1) % 2 ^ 64 = 2 * r + 2 := by
      rw [Nat.shiftLeft_eq, pow_one, Nat.mod_eq_of_lt (by omega)]
      ring
    rw [maskLoop, hstep, ih (2 * r + 2) (by rw [← hpow]; exact h), hpow]

/-- `2 ^ 64 - 2` is a fixed point of the wrapping mask loop. -/
theorem maskLoop_top (n : ℕ) : maskLoop n (2 ^ 64 - 2) = 2 ^ 64 - 2 := by
  induction n with
  | zero => rfl
  | succ n ih =>
    rw [maskLoop, show ((2 ^ 64 - 2 + 1) <<< 1) % 2 ^ 64 = 2 ^ 64 - 2 from by
      rw [Nat.shiftLeft_eq, pow_one]; omega, ih]

/-- Running the mask loop in two stages. -/
theorem maskLoop_add (a b : ℕ) : ∀ r, maskLoop (a + b) r = maskLoop b (maskLoop a r) := by
  induction a with
  | zero =>
    intro r
    rw [Nat.zero_add]
    rfl
  | succ a ih =>
    intro r
    have h1 : maskLoop (a + 1 + b) r = maskLoop (a + b) (((r + 1) <<< 1) % 2 ^ 64) := by
      rw [show a + 1 + b = (a + b) + 1 from by omega]
      rfl
    rw [h1, ih]
    rfl

/-- The 65535-round loop of the underflowed `length = 0` call saturates at
the fixed point. -/
theorem maskLoop_full : maskLoop 65535 0 = 2 ^ 64 - 2 := by
  have h1 : maskLoop 63 0 = 2 ^ 64 - 2 := by
    rw [maskLoop_eq 0 (by norm_num)]
    norm_num
  rw [show (65535 : ℕ) = 63 + 65472 from by norm_num, maskLoop_add, h1, maskLoop_top]

/-- The release-build value of the underflowing `u64::mask(0, 0)`. -/
theorem mask_zero_zero : mask 0 0 = 2 ^ 64 - 1 := by
  rw [mask, show (0 + 65535) % 65536 = 65535 from by norm_num, maskLoop_full,
    Nat.shiftLeft_eq, pow_zero, mul_one]
  omega

/-- The mask computes `(2 ^ length - 1) <<< shift` whenever `1 ≤ length` and
the shifted mask fits into 64 bits. -/
theorem mask_eq {L s : ℕ} (h : 1 ≤ L) (hs : L + s ≤ 64) :
    mask L s = (2 ^ L - 1) * 2 ^ s := by
  have hP : (0 + 2) * 2 ^ (L - 1) = 2 ^ L := by
    rw [Nat.zero_add, ← pow_succ']
    congr 1
    omega
  have hab : (2 : ℕ) ^ L * 2 ^ s = 2 ^ (L + s) := (pow_add 2 L s).symm
  have hls : (2 : ℕ) ^ (L + s) ≤ 2 ^ 64 := Nat.pow_le_pow_right (by norm_num) hs
  have hps : (1 : ℕ) ≤ 2 ^ s := Nat.one_le_two_pow
  have hlt : (2 ^ L - 1) * 2 ^ s < 2 ^ 64 := by
    rw [Nat.sub_mul, one_mul, hab]
    omega
  have h1 : (0 + 2) * 2 ^ (L - 1) - 2 + 1 = 2 ^ L - 1 := by
    have h3 : (1 : ℕ) ≤ 2 ^ (L - 1) := Nat.one_le_two_pow
    omega
  rw [mask, show (L + 65535) % 65536 = L - 1 from by omega,
    maskLoop_eq 0 (by rw [hP]; exact Nat.pow_le_pow_right (by norm_num) (by omega)),
    h1, Nat.shiftLeft_eq, Nat.mod_eq_of_lt hlt]

theorem mask_zero_eq {L : ℕ} (h : 1 ≤ L) (h64 : L ≤ 64) : mask L 0 = 2 ^ L - 1 := by
  rw [mask_eq h (by omega), pow_zero, mul_one]

theorem and_two_pow_sub_one (x n : ℕ) : x &&& (2 ^ n - 1) = x % 2 ^ n := by
  apply Nat.eq_of_testBit_eq
  intro i
  simp [Nat.testBit_and, Nat.testBit_two_pow_sub_one, Nat.testBit_mod_two_pow, Bool.and_comm]

theorem byteAt_lt {data : List ℕ} (h : ByteWF data) (i : ℕ) : byteAt data i < 256 := by
  unfold byteAt
  rw [List.getD_eq_getElem?_getD]
  rcases hq : data[i]? with _ | b
  · simp
  · simpa using h b (List.getElem?_mem hq)

/-- Key testBit splitting fact for sums `a + 2 ^ k * B` with `a < 2 ^ k`. -/
theorem testBit_add_two_pow_mul {a : ℕ} (B : ℕ) {k : ℕ} (ha : a < 2 ^ k) (j : ℕ) :
    (a + 2 ^ k * B).testBit j = if j < k then a.testBit j else B.testBit (j - k) := by
  by_cases hj : j < k
  · rw [if_pos hj, Nat.testBit_to_div_mod, Nat.testBit_to_div_mod]
    have hsplit : 2 ^ k * B = 2 ^ j * (2 ^ (k - j) * B) := by
      rw [← mul_assoc, ← pow_add]
      congr 2
      omega
    rw [hsplit, Nat.add_mul_div_left _ _ (Nat.two_pow_pos j)]
    have h2 : 2 ^ (k - j) * B = 2 * (2 ^ (k - j - 1) * B) := by
      rw [← mul_assoc]
      congr 1
      rw [← pow_succ']
      congr 1
      omega
    rw [h2, Nat.add_mul_mod_self_left]
  · rw [if_neg hj, Nat.testBit_to_div_mod, Nat.testBit_to_div_mod]
    have hsplit : (2 : ℕ) ^ j = 2 ^ k * 2 ^ (j - k) := by
      rw [← pow_add]
      congr 1
      omega
    rw [hsplit, ← Nat.div_div_eq_div_mul]
    congr 2
    rw [Nat.add_mul_div_left _ _ (Nat.two_pow_pos k), Nat.div_eq_of_lt ha, zero_add]

/-- Bit `j` of the little-endian byte window: bit `j % 8` of byte
`sb + j / 8`, for `j < 8 * n`. -/
theorem bytesLE_testBit {data : List ℕ} (h : ByteWF data) :
    ∀ n sb j, (bytesLE data sb n).testBit j =
      if j < 8 * n then (byteAt data (sb + j / 8)).testBit (j % 8) else false := by
  intro n
  induction n with
  | zero => intro sb j; simp [bytesLE]
  | succ n ih =>
    intro sb j
    have ha : byteAt data sb < 2 ^ 8 := byteAt_lt h sb
    have h256 : (256 : ℕ) = 2 ^ 8 := by norm_num
    rw [bytesLE, h256, testBit_add_two_pow_mul _ ha, ih (sb + 1) (j - 8)]
    by_cases hj : j < 8
    · have e1 : j / 8 = 0 := by omega
      have e2 : j % 8 = j := by omega
      rw [if_pos hj, if_pos (by omega), e1, e2, Nat.add_zero]
    · rw [if_neg hj]
      by_cases hj2 : j < 8 * (n + 1)
      · have e1 : sb + 1 + (j - 8) / 8 = sb + j / 8 := by omega
        have e2 : (j - 8) % 8 = j % 8 := by omega
        rw [if_pos (by omega), if_pos hj2, e1, e2]
      · rw [if_neg (by omega), if_neg hj2]

theorem bytesBE_lt {data : List ℕ} (h : ByteWF data) : ∀ n sb, bytesBE data sb n < 2 ^ (8 * n) := by
  intro n
  induction n with
  | zero => intro sb; simp [bytesBE]
  | succ n ih =>
    intro sb
    have ha : byteAt data sb < 2 ^ 8 := byteAt_lt h sb
    have hb := ih (sb + 1)
    rw [bytesBE]
    calc byteAt data sb * 2 ^ (8 * n) + bytesBE data (sb + 1) n
        < byteAt data sb * 2 ^ (8 * n) + 2 ^ (8 * n) := by omega
      _ = (byteAt data sb + 1) * 2 ^ (8 * n) := by ring
      _ ≤ 2 ^ 8 * 2 ^ (8 * n) := by
          exact Nat.mul_le_mul_right _ (by omega)
      _ = 2 ^ (8 * (n + 1)) := by rw [← pow_add]; congr 1; omega

theorem bytesLE_lt {data : List ℕ} (h : ByteWF data) : ∀ n sb, bytesLE data sb n < 2 ^ (8 * n) := by
  intro n
  induction n with
  | zero => intro sb; simp [bytesLE]
  | succ n ih =>
    intro sb
    have ha : byteAt data sb < 2 ^ 8 := byteAt_lt h sb
    have hb := ih (sb + 1)
    rw [bytesLE]
    have : (256 : ℕ) * bytesLE data (sb + 1) n ≤ 256 * (2 ^ (8 * n) - 1) := by
      have := ih (sb + 1)
      exact Nat.mul_le_mul_left _ (by omega)
    have hpow : (2 : ℕ) ^ (8 * (n + 1)) = 256 * 2 ^ (8 * n) := by
      rw [show 8 * (n + 1) = 8 + 8 * n by ring, pow_add]
      norm_num
    have hp := Nat.two_pow_pos (8 * n)
    omega

/-- Bit `j` of the byte-reversed window: bit `j % 8` of byte
`sb + (n - 1 - j / 8)`, for `j < 8 * n`. -/
theorem bytesBE_testBit {data : List ℕ} (h : ByteWF data) :
    ∀ n sb j, (bytesBE data sb n).testBit j =
      if j < 8 * n then (byteAt data (sb + (n - 1 - j / 8))).testBit (j % 8) else false := by
  intro n
  induction n with
  | zero => intro sb j; simp [bytesBE]
  | succ n ih =>
    intro sb j
    have ha : byteAt data sb < 2 ^ 8 := byteAt_lt h sb
    have hB : bytesBE data (sb + 1) n < 2 ^ (8 * n) := bytesBE_lt h n (sb + 1)
    have hcomm : bytesBE data sb (n + 1)
        = bytesBE data (sb + 1) n + 2 ^ (8 * n) * byteAt data sb := by
      rw [bytesBE]
      ring
    rw [hcomm, testBit_add_two_pow_mul _ hB, ih (sb + 1) j]
    by_cases hj : j < 8 * n
    · have e1 : sb + 1 + (n - 1 - j / 8) = sb + (n + 1 - 1 - j / 8) := by omega
      rw [if_pos hj, if_pos hj, e1, if_pos (show j < 8 * (n + 1) by omega)]
    · rw [if_neg hj]
      by_cases hj2 : j < 8 * (n + 1)
      · rw [if_pos hj2]
        have hjt : j - 8 * n = j % 8 := by omega
        have hidx : sb + (n + 1 - 1 - j / 8) = sb := by
          have : j / 8 = n := by omega
          omega
        rw [hjt, hidx]
      · rw [if_neg hj2]
        exact Nat.testBit_lt_two_pow (by calc byteAt data sb < 2 ^ 8 := ha
          _ ≤ 2 ^ (j - 8 * n) := Nat.pow_le_pow_right (by norm_num) (by omega))

theorem bufBit_8mul_add (data : List ℕ) (sb j : ℕ) :
    bufBit data (8 * sb + j) = (byteAt data (sb + j / 8)).testBit (j % 8) := by
  unfold bufBit
  have h1 : (8 * sb + j) / 8 = sb + j / 8 := by omega
  have h2 : (8 * sb + j) % 8 = j % 8 := by omega
  rw [h1, h2]

/-- Bits of the shifted and masked little-endian window, expressed through
`bufBit`. -/
theorem extractLE_testBit {data : List ℕ} (h : ByteWF data) {L : ℕ} (hL : 1 ≤ L)
    (hL64 : L ≤ 64) {sb n s : ℕ} (hs : s + L ≤ 8 * n) (j : ℕ) :
    ((bytesLE data sb n >>> s) &&& mask L 0).testBit j =
      (decide (j < L) && bufBit data (8 * sb + (s + j))) := by
  rw [Nat.testBit_and, Nat.testBit_shiftRight, mask_zero_eq hL hL64,
    Nat.testBit_two_pow_sub_one, bytesLE_testBit h n sb (s + j), bufBit_8mul_add]
  by_cases hj : j < L
  · rw [if_pos (by omega)]
    simp [hj, Bool.and_comm]
  · simp [hj]

/-- The masked little-endian extraction recovers a raw value whose bits sit
in the buffer at positions `8 * sb + s + i`. -/
theorem extractLE_eq_raw {data : List ℕ} (h : ByteWF data) {L raw : ℕ} (hL : 1 ≤ L)
    (hL64 : L ≤ 64) (hraw : raw < 2 ^ L) {sb n s : ℕ} (hs : s + L ≤ 8 * n)
    (hbits : ∀ i, i < L → bufBit data (8 * sb + (s + i)) = raw.testBit i) :
    (bytesLE data sb n >>> s) &&& mask L 0 = raw := by
  apply Nat.eq_of_testBit_eq
  intro i
  rw [extractLE_testBit h hL hL64 hs]
  by_cases hi : i < L
  · simp [hi, hbits i hi]
  · simp only [decide_eq_false hi, Bool.false_and]
    exact (Nat.testBit_lt_two_pow (lt_of_lt_of_le hraw
      (Nat.pow_le_pow_right (by norm_num) (by omega)))).symm

/-- Bits of the shifted and masked byte-reversed window, expressed through
`bufBit`. -/
theorem extractBE_testBit {data : List ℕ} (h : ByteWF data) {L : ℕ} (hL : 1 ≤ L)
    (hL64 : L ≤ 64) {sb n d : ℕ} (hd : d + L ≤ 8 * n) (j : ℕ) :
    ((bytesBE data sb n >>> d) &&& mask L 0).testBit j =
      (decide (j < L) && bufBit data (8 * (sb + (n - 1 - (d + j) / 8)) + (d + j) % 8)) := by
  rw [Nat.testBit_and, Nat.testBit_shiftRight, mask_zero_eq hL hL64,
    Nat.testBit_two_pow_sub_one, bytesBE_testBit h n sb (d + j), bufBit_8mul_add]
  by_cases hj : j < L
  · have e1 : (d + j) % 8 / 8 = 0 := by omega
    have e2 : (d + j) % 8 % 8 = (d + j) % 8 := by omega
    rw [if_pos (by omega), e1, e2, Nat.add_zero]
    simp [hj, Bool.and_comm]
  · simp [hj]

/-! ## Writing single bits -/

theorem byteAt_set {data : List ℕ} {k : ℕ} (hk : k < data.length) (v i : ℕ) :
    byteAt (data.set k v) i = if k = i then v else byteAt data i := by
  unfold byteAt
  rw [List.getD_eq_getElem?_getD, List.getD_eq_getElem?_getD, List.getElem?_set]
  by_cases h : k = i
  · subst h
    simp [hk]
  · simp [h]

/-- `Bit::try_encode` succeeds exactly when byte `start / 8` exists. -/
theorem Bit.tryEncode_ok_of_lt {sig : Bit} {data : List ℕ}
    (h : sig.start / 8 < data.length) (b : Bool) : ∃ d, sig.tryEncode data b = .ok d := by
  cases b <;>
    simp [Bit.tryEncode, not_le.mpr h]

/-- `Bit::try_encode` fails exactly when byte `start / 8` does not exist. -/
theorem Bit.tryEncode_err_of_ge {sig : Bit} {data : List ℕ}
    (h : data.length ≤ sig.start / 8) (b : Bool) :
    sig.tryEncode data b = .error .NotEnoughData := by
  cases b <;>
    simp [Bit.tryEncode, h, le_refl, ge_iff_le]

/-- Effect of a successful `Bit::try_encode`: the buffer keeps its length and
well-formedness, bit `start` becomes `value`, and every other bit-stream
position is unchanged. -/
theorem Bit.tryEncode_spec {sig : Bit} {data : List ℕ} {b : Bool} {d : List ℕ}
    (hok : sig.tryEncode data b = .ok d) :
    d.length = data.length ∧ (ByteWF data → ByteWF d) ∧
      ∀ pos, bufBit d pos = if pos = sig.start then b else bufBit data pos := by
  have hlt : sig.start / 8 < data.length := by
    by_contra hge
    rw [Bit.tryEncode_err_of_ge (by omega) b] at hok
    exact Except.noConfusion hok
  have hmask1 : mask 1 (sig.start % 8) = 2 ^ (sig.start % 8) := by
    rw [mask_eq le_rfl (show 1 + sig.start % 8 ≤ 64 by omega)]
    norm_num
  have hd : d = data.set (sig.start / 8)
      (if b then byteAt data (sig.start / 8) ||| mask 1 (sig.start % 8)
       else byteAt data (sig.start / 8) &&& (255 ^^^ mask 1 (sig.start % 8))) := by
    cases b <;>
      simpa [Bit.tryEncode, not_le.mpr hlt, eq_comm] using hok
  subst hd
  refine ⟨List.length_set _ _ _, ?_, ?_⟩
  · intro hwf x hx
    rcases List.mem_or_eq_of_mem_set hx with hmem | hset
    · exact hwf x hmem
    · subst hset
      have hold : byteAt data (sig.start / 8) < 256 := byteAt_lt hwf _
      cases b
      · simpa using lt_of_le_of_lt Nat.and_le_left hold
      · simp only [if_true]
        have h256 : (256 : ℕ) = 2 ^ 8 := by norm_num
        rw [h256] at hold ⊢
        have hm : mask 1 (sig.start % 8) < 2 ^ 8 := by
          rw [hmask1]
          exact Nat.pow_lt_pow_right (by norm_num) (Nat.mod_lt _ (by norm_num))
        exact Nat.or_lt_two_pow hold hm
  · intro pos
    unfold bufBit
    rw [byteAt_set hlt]
    have h8 : pos % 8 < 8 := Nat.mod_lt pos (by norm_num)
    by_cases hbyte : sig.start / 8 = pos / 8
    · rw [if_pos hbyte]
      have htb : (if b = true then byteAt data (sig.start / 8) ||| mask 1 (sig.start % 8)
          else byteAt data (sig.start / 8) &&& (255 ^^^ mask 1 (sig.start % 8))).testBit
            (pos % 8) =
          if pos % 8 = sig.start % 8 then b
          else (byteAt data (sig.start / 8)).testBit (pos % 8) := by
        have hs8 : sig.start % 8 < 8 := Nat.mod_lt _ (by norm_num)
        cases b
        · rw [if_neg (by simp), Nat.testBit_and, Nat.testBit_xor, hmask1,
            Nat.testBit_two_pow, show (255 : ℕ) = 2 ^ 8 - 1 by norm_num,
            Nat.testBit_two_pow_sub_one]
          by_cases hbit : pos % 8 = sig.start % 8
          · simp [hbit, hs8]
          · simp only [if_neg hbit, decide_eq_true_eq]
            rw [decide_eq_false (Ne.symm hbit), decide_eq_true h8]
            simp
        · rw [if_pos rfl, Nat.testBit_or, hmask1, Nat.testBit_two_pow]
          by_cases hbit : pos % 8 = sig.start % 8
          · simp [hbit]
          · rw [decide_eq_false (Ne.symm hbit), if_neg hbit]
            simp
      rw [htb]
      by_cases hbit : pos % 8 = sig.start % 8
      · have hpos : pos = sig.start := by omega
        rw [if_pos hbit, if_pos hpos]
      · have hpos : pos ≠ sig.start := by omega
        rw [if_neg hbit, if_neg hpos, hbyte]
    · have hpos : pos ≠ sig.start := by
        intro hc
        exact hbyte (by rw [hc])
      rw [if_neg hbyte, if_neg hpos]

/-! ## The bit-by-bit write loops -/

theorem select_tryEncode_low (sig : Bit) (data : List ℕ) (value : ℕ) :
    (if value &&& 1 = 0 then sig.tryEncode data false else sig.tryEncode data true) =
      sig.tryEncode data (value.testBit 0) := by
  have hbit0 : value.testBit 0 = decide (value % 2 = 1) := by
    rw [Nat.testBit_to_div_mod]
    norm_num
  have hand : value &&& 1 = value % 2 := Nat.and_one_is_mod value
  by_cases h0 : value &&& 1 = 0
  · rw [if_pos h0]
    rw [hand] at h0
    congr 1
    rw [hbit0]
    simp [h0]
  · rw [if_neg h0]
    rw [hand] at h0
    congr 1
    rw [hbit0]
    have : value % 2 = 1 := by omega
    simp [this]

/-- Effect of a successful `Endian::Little` write loop: bits
`start .. start + len - 1` receive the low `len` bits of `value`; everything
else is untouched. -/
theorem writeBitsLittle_spec :
    ∀ (len start value : ℕ) (data d : List ℕ),
      writeBitsLittle start value len data = some d →
      d.length = data.length ∧ (ByteWF data → ByteWF d) ∧
        ∀ pos, bufBit d pos =
          if start ≤ pos ∧ pos < start + len then value.testBit (pos - start)
          else bufBit data pos := by
  intro len
  induction len with
  | zero =>
    intro start value data d hd
    simp only [writeBitsLittle, Option.some.injEq] at hd
    subst hd
    refine ⟨rfl, fun h => h, ?_⟩
    intro pos
    rw [if_neg (by omega)]
  | succ n ih =>
    intro start value data d hd
    simp only [writeBitsLittle, select_tryEncode_low] at hd
    rcases henc : (Bit.new start).tryEncode data (value.testBit 0) with e | d1
    · rw [henc] at hd
      exact absurd hd (by simp)
    · rw [henc] at hd
      simp only at hd
      obtain ⟨hlen1, hwf1, hbits1⟩ := Bit.tryEncode_spec henc
      simp only [Bit.new] at hbits1
      obtain ⟨hlen2, hwf2, hbits2⟩ := ih (start + 1) (value >>> 1) d1 d hd
      refine ⟨hlen2.trans hlen1, fun h => hwf2 (hwf1 h), ?_⟩
      intro pos
      rw [hbits2 pos, hbits1 pos]
      by_cases h1 : start + 1 ≤ pos ∧ pos < start + 1 + n
      · rw [if_pos h1, if_pos (by omega), Nat.testBit_shiftRight]
        congr 1
        omega
      · rw [if_neg h1]
        by_cases h2 : pos = start
        · rw [if_pos h2, if_pos (by omega), h2]
          simp [Bit.new]
        · rw [if_neg h2, if_neg (by omega)]

/-- The `Endian::Little` write loop succeeds when every touched byte
exists. -/
theorem writeBitsLittle_isSome :
    ∀ (len start value : ℕ) (data : List ℕ),
      (∀ i, i < len → (start + i) / 8 < data.length) →
      ∃ d, writeBitsLittle start value len data = some d := by
  intro len
  induction len with
  | zero =>
    intro start value data _
    exact ⟨data, rfl⟩
  | succ n ih =>
    intro start value data h
    obtain ⟨d1, hd1⟩ := @Bit.tryEncode_ok_of_lt (Bit.new start) data
      (by simpa using h 0 (by omega)) (value.testBit 0)
    have hlen1 : d1.length = data.length := (Bit.tryEncode_spec hd1).1
    obtain ⟨d, hd⟩ := ih (start + 1) (value >>> 1) d1 (by
      intro i hi
      rw [hlen1]
      have := h (i + 1) (by omega)
      have e : start + 1 + i = start + (i + 1) := by omega
      rw [e]
      exact this)
    refine ⟨d, ?_⟩
    simp only [writeBitsLittle, select_tryEncode_low, hd1]
    exact hd

/-! ## Canonical big-endian bit positions -/

theorem canon_div (p : ℕ) : canon p / 8 = p / 8 := by
  unfold canon
  omega

theorem canon_canon (p : ℕ) : canon (canon p) = p := by
  unfold canon
  omega

theorem canon_inj {p q : ℕ} (h : canon p = canon q) : p = q := by
  have h2 := congrArg canon h
  rwa [canon_canon, canon_canon] at h2

theorem canon_nextBigPos (p : ℕ) : canon (nextBigPos p) = canon p + 1 := by
  unfold canon nextBigPos
  by_cases h : p % 8 = 0
  · rw [if_pos h]
    omega
  · rw [if_neg h]
    omega

theorem select_tryEncode_shifted (sig : Bit) (data : List ℕ) (value r : ℕ) :
    (if (value >>> r) &&& 1 = 0 then sig.tryEncode data false else sig.tryEncode data true) =
      sig.tryEncode data (value.testBit r) := by
  rw [select_tryEncode_low sig data (value >>> r)]
  have h : (value >>> r).testBit 0 = value.testBit r := by
    rw [Nat.testBit_shiftRight, Nat.add_zero]
  rw [h]

/-- Effect of a successful `Endian::Big` write loop: the position with
canonical index `canon p + i` receives bit `r - 1 - i` of `value`; everything
else is untouched. -/
theorem writeBitsBig_spec (value : ℕ) :
    ∀ (r p : ℕ) (data d : List ℕ),
      writeBitsBig value r p data = some d →
      d.length = data.length ∧ (ByteWF data → ByteWF d) ∧
        ∀ pos, bufBit d pos =
          if canon p ≤ canon pos ∧ canon pos < canon p + r
          then value.testBit (r - 1 - (canon pos - canon p))
          else bufBit data pos := by
  intro r
  induction r with
  | zero =>
    intro p data d hd
    simp only [writeBitsBig, Option.some.injEq] at hd
    subst hd
    refine ⟨rfl, fun h => h, ?_⟩
    intro pos
    rw [if_neg (by omega)]
  | succ n ih =>
    intro p data d hd
    simp only [writeBitsBig, select_tryEncode_shifted] at hd
    rcases henc : (Bit.new p).tryEncode data (value.testBit n) with e | d1
    · rw [henc] at hd
      exact absurd hd (by simp)
    · rw [henc] at hd
      simp only at hd
      obtain ⟨hlen1, hwf1, hbits1⟩ := Bit.tryEncode_spec henc
      simp only [Bit.new] at hbits1
      obtain ⟨hlen2, hwf2, hbits2⟩ := ih (nextBigPos p) d1 d hd
      refine ⟨hlen2.trans hlen1, fun h => hwf2 (hwf1 h), ?_⟩
      intro pos
      rw [hbits2 pos, hbits1 pos, canon_nextBigPos]
      by_cases h1 : canon p + 1 ≤ canon pos ∧ canon pos < canon p + 1 + n
      · rw [if_pos h1, if_pos (by omega)]
        congr 1
        omega
      · rw [if_neg h1]
        by_cases h2 : pos = p
        · have hc : canon pos = canon p := by rw [h2]
          rw [if_pos h2, if_pos (by omega), hc]
          simp [Bit.new]
        · have hc : canon pos ≠ canon p := fun hcc => h2 (canon_inj hcc)
          rw [if_neg h2, if_neg (by omega)]

/-- The `Endian::Big` write loop succeeds when every touched byte exists. -/
theorem writeBitsBig_isSome (value : ℕ) :
    ∀ (r p : ℕ) (data : List ℕ),
      (∀ i, i < r → (canon p + i) / 8 < data.length) →
      ∃ d, writeBitsBig value r p data = some d := by
  intro r
  induction r with
  | zero =>
    intro p data _
    exact ⟨data, rfl⟩
  | succ n ih =>
    intro p data h
    have hp : p / 8 < data.length := by
      have := h 0 (by omega)
      rwa [Nat.add_zero, canon_div] at this
    obtain ⟨d1, hd1⟩ := @Bit.tryEncode_ok_of_lt (Bit.new p) data (by simpa using hp)
      (value.testBit n)
    have hlen1 : d1.length = data.length := (Bit.tryEncode_spec hd1).1
    obtain ⟨d, hd⟩ := ih (nextBigPos p) d1 (by
      intro i hi
      rw [hlen1, canon_nextBigPos]
      have := h (i + 1) (by omega)
      have e : canon p + 1 + i = canon p + (i + 1) := by omega
      rw [e]
      exact this)
    refine ⟨d, ?_⟩
    simp only [writeBitsBig, select_tryEncode_shifted, hd1]
    exact hd

/-! ## Two's-complement facts -/

theorem i64OfPat_of_lt {p : ℕ} (h : p < 2 ^ 63) : i64OfPat p = (p : ℤ) := by
  rw [i64OfPat, if_pos h]

/-- The top bit of a value below `2 ^ L` reads off whether the value is at
least `2 ^ (L - 1)`. -/
theorem testBit_top_iff {L q : ℕ} (hL1 : 1 ≤ L) (hq : q < 2 ^ L) :
    q.testBit (L - 1) = true ↔ 2 ^ (L - 1) ≤ q := by
  have hP : (2 : ℕ) ^ L = 2 * 2 ^ (L - 1) := by
    conv_lhs => rw [← Nat.sub_one_add_one (by omega : L ≠ 0)]
    rw [pow_succ]
    ring
  rw [Nat.testBit_to_div_mod]
  constructor
  · intro h
    by_contra hlt
    rw [Nat.div_eq_of_lt (by omega)] at h
    simp at h
  · intro h
    rw [Nat.div_eq_of_lt_le (show 1 * 2 ^ (L - 1) ≤ q by omega)
      (show q < (1 + 1) * 2 ^ (L - 1) by omega)]
    simp

/-- The complement `!i64::mask(L, 0)` as a 64-bit pattern: the high
`64 - L` bits set. -/
theorem notMask_pat {L : ℕ} (hL1 : 1 ≤ L) (hL : L ≤ 64) :
    (2 ^ 64 - 1) ^^^ mask L 0 = 2 ^ 64 - 2 ^ L := by
  rw [mask_zero_eq hL1 hL]
  apply Nat.eq_of_testBit_eq
  intro i
  have hrhs : (2 : ℕ) ^ 64 - 2 ^ L = (2 ^ (64 - L) - 1) <<< L := by
    rw [Nat.shiftLeft_eq, Nat.sub_mul, one_mul, ← pow_add]
    congr 2
    omega
  rw [Nat.testBit_xor, Nat.testBit_two_pow_sub_one, Nat.testBit_two_pow_sub_one, hrhs,
    Nat.testBit_shiftLeft, Nat.testBit_two_pow_sub_one]
  by_cases h1 : i < L
  · rw [decide_eq_true (show i < 64 by omega), decide_eq_true h1,
      decide_eq_false (show ¬i ≥ L by omega)]
    simp
  · by_cases h2 : i < 64
    · rw [decide_eq_true h2, decide_eq_false h1, decide_eq_true (show i ≥ L by omega),
        decide_eq_true (show i - L < 64 - L by omega)]
      simp
    · rw [decide_eq_false h2, decide_eq_false h1, decide_eq_true (show i ≥ L by omega),
        decide_eq_false (show ¬i - L < 64 - L by omega)]
      simp

/-- The sign test `converted & i64::mask(1, length - 1) != 0` is the top bit
of the masked value. -/
theorem signTest_iff {L q : ℕ} (hL1 : 1 ≤ L) (hL : L ≤ 64) :
    (q &&& mask 1 (L - 1) ≠ 0) ↔ q.testBit (L - 1) = true := by
  rw [mask_eq le_rfl (show 1 + (L - 1) ≤ 64 by omega),
    show (2 ^ 1 - 1) * 2 ^ (L - 1) = 2 ^ (L - 1) by norm_num,
    Nat.and_two_pow]
  rcases hb : q.testBit (L - 1)
  · simp [hb]
  · simp [hb, (Nat.two_pow_pos (L - 1)).ne']

/-- The sign-extension step of `Signed::try_decode` computes exactly the
claimed subtraction of `2 ^ length`. -/
theorem signExtendPat_eq {L q : ℕ} (hL1 : 1 ≤ L) (hL : L ≤ 64) (hq : q < 2 ^ L) :
    i64OfPat (signExtendPat L q) =
      if q.testBit (L - 1) then (q : ℤ) - 2 ^ L else (q : ℤ) := by
  have hP : (2 : ℕ) ^ L = 2 * 2 ^ (L - 1) := by
    conv_lhs => rw [← Nat.sub_one_add_one (by omega : L ≠ 0)]
    rw [pow_succ]
    ring
  unfold signExtendPat
  rcases hb : q.testBit (L - 1)
  · rw [if_neg (by rw [signTest_iff hL1 hL]; simp [hb]), if_neg (by simp)]
    have hq63 : q < 2 ^ 63 := by
      have htop : q < 2 ^ (L - 1) := by
        by_contra hge
        rw [(testBit_top_iff hL1 hq).mpr (by omega)] at hb
        exact Bool.noConfusion hb
      calc q < 2 ^ (L - 1) := htop
        _ ≤ 2 ^ 63 := Nat.pow_le_pow_right (by norm_num) (by omega)
    exact i64OfPat_of_lt hq63
  · rw [if_pos (by rw [signTest_iff hL1 hL]; simp [hb]), if_pos rfl, notMask_pat hL1 hL]
    have hqtop : 2 ^ (L - 1) ≤ q := (testBit_top_iff hL1 hq).mp hb
    have hLle : (2 : ℕ) ^ L ≤ 2 ^ 64 := Nat.pow_le_pow_right (by norm_num) hL
    have hsum : q + (2 ^ 64 - 2 ^ L) < 2 ^ 64 := by omega
    rw [Nat.mod_eq_of_lt hsum]
    have hge63 : ¬q + (2 ^ 64 - 2 ^ L) < 2 ^ 63 := by
      have h63 : (2 : ℕ) ^ (L - 1) ≤ 2 ^ 63 := Nat.pow_le_pow_right (by norm_num) (by omega)
      have h64 : (2 : ℕ) ^ 64 = 2 ^ 63 * 2 := by norm_num
      omega
    rw [i64OfPat, if_neg hge63]
    have e1 : q + (2 ^ 64 - 2 ^ L) = (q + 2 ^ 64) - 2 ^ L := by omega
    rw [e1, Nat.cast_sub (by omega)]
    push_cast
    ring

/-- Arithmetic and logical right shift agree after masking to `L` bits
whenever `s + L ≤ 64`. -/
theorem asrPat_and_mask {p s L : ℕ} (hL1 : 1 ≤ L) (hsL : s + L ≤ 64) :
    asrPat p s &&& mask L 0 = (p >>> s) &&& mask L 0 := by
  unfold asrPat
  rcases hb : p.testBit 63
  · rw [if_neg (by simp)]
  · rw [if_pos rfl, mask_zero_eq hL1 (by omega), and_two_pow_sub_one, and_two_pow_sub_one]
    have hdvd : 2 ^ L ∣ 2 ^ 64 - 2 ^ (64 - s) :=
      Nat.dvd_sub' (pow_dvd_pow 2 (by omega)) (pow_dvd_pow 2 (by omega))
    obtain ⟨c, hc⟩ := hdvd
    rw [hc, Nat.add_mul_mod_self_left]

/-- `Signed::min` evaluates to `-(2 ^ (length - 1)) * factor + offset`. -/
theorem signedMin_eq {L : ℕ} (hL1 : 1 ≤ L) (hL : L ≤ 64) :
    i64OfPat (mask (64 - L + 1) (L - 1)) = -(2 ^ (L - 1) : ℤ) := by
  have hmv : mask (64 - L + 1) (L - 1) = 2 ^ 64 - 2 ^ (L - 1) := by
    rw [mask_eq (show 1 ≤ 64 - L + 1 by omega) (show (64 - L + 1) + (L - 1) ≤ 64 by omega),
      Nat.sub_mul, one_mul, ← pow_add]
    congr 2
    omega
  have h63 : (2 : ℕ) ^ (L - 1) ≤ 2 ^ 63 := Nat.pow_le_pow_right (by norm_num) (by omega)
  have h64 : (2 : ℕ) ^ 64 = 2 ^ 63 * 2 := by norm_num
  rw [hmv, i64OfPat, if_neg (by omega)]
  have hle : (2 : ℕ) ^ (L - 1) ≤ 2 ^ 64 := by omega
  rw [Nat.cast_sub hle]
  push_cast
  ring

/-! ## Truncation facts -/

theorem ratTrunc_intCast (z : ℤ) : ratTrunc (z : ℚ) = z := by
  unfold ratTrunc
  by_cases h : (0 : ℚ) ≤ (z : ℚ)
  · rw [if_pos h, Int.floor_intCast]
  · rw [if_neg h, Int.ceil_intCast]

theorem ratTrunc_natCast (n : ℕ) : ratTrunc (n : ℚ) = (n : ℤ) := by
  have h : ((n : ℤ) : ℚ) = (n : ℚ) := by push_cast; rfl
  rw [← h, ratTrunc_intCast]

/-- Truncation agrees with the floor exactly on non-negative or integral
arguments. -/
theorem ratTrunc_eq_floor {q : ℚ} (h : 0 ≤ q ∨ q.den = 1) : ratTrunc q = ⌊q⌋ := by
  unfold ratTrunc
  rcases h with h | h
  · rw [if_pos h]
  · by_cases h0 : 0 ≤ q
    · rw [if_pos h0]
    · rw [if_neg h0]
      have hz : ((q.num : ℚ)) = q := (Rat.den_eq_one_iff q).mp h
      rw [← hz, Int.ceil_intCast, Int.floor_intCast]

theorem ratTrunc_nonneg {q : ℚ} (h : 0 ≤ q) : 0 ≤ ratTrunc q := by
  rw [ratTrunc, if_pos h]
  exact Int.le_floor.mpr (by exact_mod_cast h)

theorem ratTrunc_le {q : ℚ} {m : ℤ} (h : q ≤ (m : ℚ)) : ratTrunc q ≤ m := by
  unfold ratTrunc
  by_cases h0 : 0 ≤ q
  · rw [if_pos h0]
    calc ⌊q⌋ ≤ ⌊(m : ℚ)⌋ := Int.floor_le_floor h
      _ = m := Int.floor_intCast m
  · rw [if_neg h0]
    exact Int.ceil_le.mpr h

theorem le_ratTrunc {q : ℚ} {m : ℤ} (h : (m : ℚ) ≤ q) : m ≤ ratTrunc q := by
  unfold ratTrunc
  by_cases h0 : 0 ≤ q
  · rw [if_pos h0]
    exact Int.le_floor.mpr h
  · rw [if_neg h0]
    calc m ≤ ⌈(m : ℚ)⌉ := by rw [Int.ceil_intCast]
      _ ≤ ⌈q⌉ := Int.ceil_le_ceil h

/-! ## The raw integer computed before the write loops -/

theorem toU64_of_bounds {z : ℤ} (h0 : 0 ≤ z) (h1 : z ≤ 2 ^ 64 - 1) : toU64 z = z.toNat := by
  rw [toU64, if_neg (by omega), if_neg (by omega)]

/-- With `factor = 1` and `offset = 0` an integral value below `2 ^ length`
is written back verbatim. -/
theorem unsignedRawPat_id {st L : ℕ} {e : Endian} {v : ℕ} (hL1 : 1 ≤ L) (hL : L ≤ 64)
    (hv : v < 2 ^ L) : unsignedRawPat ⟨st, L, 1, 0, e⟩ (v : ℚ) = v := by
  unfold unsignedRawPat
  simp only
  have hq : ((v : ℚ) - 0) / 1 = (v : ℚ) := by ring
  have hvle : v ≤ 2 ^ 64 - 1 := by
    have := Nat.pow_le_pow_right (show 1 ≤ 2 by norm_num) hL
    omega
  rw [hq, ratTrunc_natCast, toU64_of_bounds (by positivity) (by omega),
    Int.toNat_natCast, mask_zero_eq hL1 hL, and_two_pow_sub_one, Nat.mod_eq_of_lt hv]

/-- The subtract-complement-then-mask dance of `Signed::try_encode` computes
the two's-complement residue of the truncated quotient. -/
theorem signedRawPat_emod {st L : ℕ} {f o : ℚ} {e : Endian} {v : ℚ} (hL1 : 1 ≤ L)
    (hL : L ≤ 64) (hlo : -(2 ^ 63) ≤ ratTrunc ((v - o) / f))
    (hhi : ratTrunc ((v - o) / f) ≤ 2 ^ 63 - 1) :
    signedRawPat ⟨st, L, f, o, e⟩ v = ((ratTrunc ((v - o) / f)) % (2 ^ L : ℤ)).toNat := by
  unfold signedRawPat
  simp only
  set t := ratTrunc ((v - o) / f) with ht
  have htoI : toI64 t = t := by rw [toI64, if_neg (by omega), if_neg (by omega)]
  rw [htoI, notMask_pat hL1 hL]
  set v3 := if t < 0 then t - i64OfPat (2 ^ 64 - 2 ^ L) else t with hv3
  have hmod : v3 % (2 ^ L : ℤ) = t % (2 ^ L : ℤ) := by
    rw [hv3]
    by_cases ht0 : t < 0
    · rw [if_pos ht0]
      by_cases hL64 : L = 64
      · subst hL64
        norm_num [i64OfPat]
      · have hge : ¬(2 ^ 64 - 2 ^ L : ℕ) < 2 ^ 63 := by
          have h1 : (2 : ℕ) ^ L ≤ 2 ^ 63 := Nat.pow_le_pow_right (by norm_num) (by omega)
          have h2 : (2 : ℕ) ^ 64 = 2 ^ 63 * 2 := by norm_num
          omega
        have hcastN : ((2 ^ 64 - 2 ^ L : ℕ) : ℤ) = (2 ^ 64 : ℤ) - (2 ^ L : ℤ) := by
          rw [Nat.cast_sub (Nat.pow_le_pow_right (by norm_num) hL)]
          norm_cast
        rw [i64OfPat, if_neg hge, hcastN]
        have he : t - ((2 ^ 64 : ℤ) - 2 ^ L - 2 ^ 64) = t + (2 ^ L : ℤ) * 1 := by ring
        rw [he, Int.add_mul_emod_self_left]
    · rw [if_neg ht0]
  have hnn : (0 : ℤ) ≤ v3 % (2 ^ 64 : ℤ) := Int.emod_nonneg _ (by norm_num)
  rw [patOfInt, mask_zero_eq hL1 hL, and_two_pow_sub_one]
  set m := (v3 % (2 ^ 64 : ℤ)).toNat with hmdef
  have hmz : (m : ℤ) = v3 % (2 ^ 64 : ℤ) := Int.toNat_of_nonneg hnn
  have hcast : ((m % 2 ^ L : ℕ) : ℤ) = t % (2 ^ L : ℤ) := by
    have hpc : ((m % 2 ^ L : ℕ) : ℤ) = (m : ℤ) % (2 ^ L : ℤ) := by
      push_cast
      rfl
    rw [hpc, hmz, Int.emod_emod_of_dvd _ (pow_dvd_pow (2 : ℤ) hL), hmod]
  have hfin := congrArg Int.toNat hcast
  rwa [Int.toNat_natCast] at hfin

/-- With `factor = 1` and `offset = 0` an integral in-range signed value
produces its two's-complement pattern. -/
theorem signedRawPat_id {st L : ℕ} {e : Endian} {v : ℤ} (hL1 : 1 ≤ L) (hL : L ≤ 64)
    (hlo : -(2 ^ (L - 1)) ≤ v) (hhi : v < 2 ^ (L - 1)) :
    signedRawPat ⟨st, L, 1, 0, e⟩ (v : ℚ) = (v % (2 ^ L : ℤ)).toNat := by
  have hq : ((v : ℚ) - 0) / 1 = (v : ℚ) := by ring
  have hpow : (2 : ℤ) ^ (L - 1) ≤ 2 ^ 63 := by
    have := Nat.pow_le_pow_right (show 1 ≤ 2 by norm_num) (show L - 1 ≤ 63 by omega)
    exact_mod_cast this
  have h1 := @signedRawPat_emod st L (1 : ℚ) (0 : ℚ) e (v : ℚ)
    hL1 hL (by rw [hq, ratTrunc_intCast]; omega)
    (by rw [hq, ratTrunc_intCast]; omega)
  rw [h1, hq, ratTrunc_intCast]

/-- At descriptor length 1 the release-build `Signed::max` wraps to
`(2 ^ 64 - 1) * factor + offset`, admitting in-range values whose truncated
quotient saturates the `as i64` cast: for the value `2 ^ 63` the written raw
bit is 1 while the two's-complement residue of the truncation is 0.  This is
the reason the Signed truncation-residue statement below requires
`2 ≤ length`. -/
theorem signed_length_one_saturation :
    Signed.min ⟨0, 1, 1, 0, Endian.Little⟩ ≤ ((2 ^ 63 : ℕ) : ℚ) ∧
    ((2 ^ 63 : ℕ) : ℚ) ≤ Signed.max ⟨0, 1, 1, 0, Endian.Little⟩ ∧
    signedRawPat ⟨0, 1, 1, 0, Endian.Little⟩ ((2 ^ 63 : ℕ) : ℚ) = 1 ∧
    ((ratTrunc ((((2 ^ 63 : ℕ) : ℚ) - 0) / 1)) % (2 ^ 1 : ℤ)).toNat = 0 := by
  have hq : ((((2 ^ 63 : ℕ) : ℚ)) - 0) / 1 = ((2 ^ 63 : ℕ) : ℚ) := by ring
  have htr : ratTrunc ((((2 ^ 63 : ℕ) : ℚ) - 0) / 1) = (2 ^ 63 : ℤ) := by
    rw [hq, ratTrunc_natCast]
    push_cast
  refine ⟨?_, ?_, ?_, ?_⟩
  · rw [show Signed.min ⟨0, 1, 1, 0, Endian.Little⟩ =
      ((i64OfPat (mask (64 - 1 + 1) (1 - 1)) : ℤ) : ℚ) * 1 + 0 from rfl,
      signedMin_eq le_rfl (by norm_num)]
    have h0 : (0 : ℚ) ≤ ((2 ^ 63 : ℕ) : ℚ) := by positivity
    push_cast
    linarith
  · rw [show Signed.max ⟨0, 1, 1, 0, Endian.Little⟩ =
      ((mask (1 - 1) 0 : ℕ) : ℚ) * 1 + 0 from rfl,
      show (1 : ℕ) - 1 = 0 from rfl, mask_zero_zero]
    have h1 : ((2 ^ 63 : ℕ) : ℚ) ≤ ((2 ^ 64 - 1 : ℕ) : ℚ) := by
      exact_mod_cast (by norm_num : (2 ^ 63 : ℕ) ≤ 2 ^ 64 - 1)
    linarith
  · unfold signedRawPat
    simp only
    rw [htr]
    decide
  · rw [htr]
    decide

/-- Residue facts for the signed round trip. -/
theorem emod_two_pow_of_neg {v : ℤ} {L : ℕ} (hL1 : 1 ≤ L)
    (hlo : -(2 ^ (L - 1)) ≤ v) (hv : v < 0) :
    v % (2 ^ L : ℤ) = v + 2 ^ L := by
  have hP : (2 : ℤ) ^ L = 2 * 2 ^ (L - 1) := by
    conv_lhs => rw [← Nat.sub_one_add_one (by omega : L ≠ 0)]
    rw [pow_succ]
    ring
  have he : v % (2 ^ L : ℤ) = (v + 2 ^ L) % 2 ^ L := by
    conv_rhs => rw [show v + (2 : ℤ) ^ L = v + 2 ^ L * 1 by ring]
    rw [Int.add_mul_emod_self_left]
  rw [he]
  exact Int.emod_eq_of_lt (by omega) (by omega)

theorem emod_two_pow_of_nonneg {v : ℤ} {L : ℕ}
    (h0 : 0 ≤ v) (hv : v < 2 ^ L) : v % (2 ^ L : ℤ) = v :=
  Int.emod_eq_of_lt h0 hv

/-! ## Characterizations of the four encode arms -/

/-- `Unsigned::try_encode`, `Endian::Little` arm, on an in-range value over a
large-enough buffer: it succeeds, the raw pattern lands at bit positions
`start + i`, and every other bit survives. -/
theorem Unsigned.tryEncode_little_ok {st L : ℕ} {f o : ℚ} {data : List ℕ} {v : ℚ}
    (hwf : ByteWF data)
    (hmin : Unsigned.min ⟨st, L, f, o, .Little⟩ ≤ v)
    (hmax : v ≤ Unsigned.max ⟨st, L, f, o, .Little⟩)
    (hav : st + L ≤ 8 * data.length) :
    ∃ d, Unsigned.tryEncode ⟨st, L, f, o, .Little⟩ data v = .ok d ∧
      d.length = data.length ∧ ByteWF d ∧
      (∀ i, i < L → bufBit d (st + i) =
        (unsignedRawPat ⟨st, L, f, o, .Little⟩ v).testBit i) ∧
      (∀ pos, ¬spanLittle st L pos → bufBit d pos = bufBit data pos) := by
  obtain ⟨d, hd⟩ := writeBitsLittle_isSome L st (unsignedRawPat ⟨st, L, f, o, .Little⟩ v) data
    (by intro i hi; omega)
  obtain ⟨hlen, hwfd, hbits⟩ := writeBitsLittle_spec L st _ data d hd
  refine ⟨d, ?_, hlen, hwfd hwf, ?_, ?_⟩
  · simp only [Unsigned.tryEncode]
    rw [if_neg (not_lt.mpr hmin), if_neg (not_lt.mpr hmax)]
    rw [if_neg (by omega), hd]
  · intro i hi
    rw [hbits (st + i), if_pos (by omega)]
    congr 1
    omega
  · intro pos hpos
    unfold spanLittle at hpos
    rw [hbits pos, if_neg hpos]

/-- `Unsigned::try_encode`, `Endian::Big` arm, on an in-range value over a
large-enough buffer: it succeeds, the raw pattern lands at the canonical
positions following `canon start` (most significant bit first), and every
other bit survives. -/
theorem Unsigned.tryEncode_big_ok {st L : ℕ} {f o : ℚ} {data : List ℕ} {v : ℚ}
    (hwf : ByteWF data)
    (hmin : Unsigned.min ⟨st, L, f, o, .Big⟩ ≤ v)
    (hmax : v ≤ Unsigned.max ⟨st, L, f, o, .Big⟩)
    (hav : (7 - st % 8) + 8 * (st / 8) + L ≤ 8 * data.length) :
    ∃ d, Unsigned.tryEncode ⟨st, L, f, o, .Big⟩ data v = .ok d ∧
      d.length = data.length ∧ ByteWF d ∧
      (∀ pos, spanBig st L pos → bufBit d pos =
        (unsignedRawPat ⟨st, L, f, o, .Big⟩ v).testBit (L - 1 - (canon pos - canon st))) ∧
      (∀ pos, ¬spanBig st L pos → bufBit d pos = bufBit data pos) := by
  have hbound : ∀ i, i < L → (canon st + i) / 8 < data.length := by
    intro i hi
    unfold canon
    omega
  obtain ⟨d, hd⟩ := writeBitsBig_isSome (unsignedRawPat ⟨st, L, f, o, .Big⟩ v) L st data hbound
  obtain ⟨hlen, hwfd, hbits⟩ := writeBitsBig_spec _ L st data d hd
  refine ⟨d, ?_, hlen, hwfd hwf, ?_, ?_⟩
  · simp only [Unsigned.tryEncode]
    rw [if_neg (not_lt.mpr hmin), if_neg (not_lt.mpr hmax)]
    rw [if_neg (by omega), hd]
  · intro pos hpos
    unfold spanBig at hpos
    rw [hbits pos, if_pos hpos]
  · intro pos hpos
    unfold spanBig at hpos
    rw [hbits pos, if_neg hpos]

/-- `Signed::try_encode`, `Endian::Little` arm, on an in-range value over a
large-enough buffer. -/
theorem Signed.encode_little_ok {st L : ℕ} {f o : ℚ} {data : List ℕ} {v : ℚ}
    (hwf : ByteWF data)
    (hmin : Signed.min ⟨st, L, f, o, .Little⟩ ≤ v)
    (hmax : v ≤ Signed.max ⟨st, L, f, o, .Little⟩)
    (hav : st + L ≤ 8 * data.length) :
    ∃ d, Signed.tryEncode ⟨st, L, f, o, .Little⟩ data v = .ok d ∧
      d.length = data.length ∧ ByteWF d ∧
      (∀ i, i < L → bufBit d (st + i) =
        (signedRawPat ⟨st, L, f, o, .Little⟩ v).testBit i) ∧
      (∀ pos, ¬spanLittle st L pos → bufBit d pos = bufBit data pos) := by
  obtain ⟨d, hd⟩ := writeBitsLittle_isSome L st (signedRawPat ⟨st, L, f, o, .Little⟩ v) data
    (by intro i hi; omega)
  obtain ⟨hlen, hwfd, hbits⟩ := writeBitsLittle_spec L st _ data d hd
  refine ⟨d, ?_, hlen, hwfd hwf, ?_, ?_⟩
  · simp only [Signed.tryEncode]
    rw [if_neg (not_lt.mpr hmin), if_neg (not_lt.mpr hmax)]
    rw [if_neg (by omega), hd]
  · intro i hi
    rw [hbits (st + i), if_pos (by omega)]
    congr 1
    omega
  · intro pos hpos
    unfold spanLittle at hpos
    rw [hbits pos, if_neg hpos]

/-- `Signed::try_encode`, `Endian::Big` arm, on an in-range value over a
large-enough buffer. -/
theorem Signed.encode_big_ok {st L : ℕ} {f o : ℚ} {data : List ℕ} {v : ℚ}
    (hwf : ByteWF data)
    (hmin : Signed.min ⟨st, L, f, o, .Big⟩ ≤ v)
    (hmax : v ≤ Signed.max ⟨st, L, f, o, .Big⟩)
    (hav : (7 - st % 8) + 8 * (st / 8) + L ≤ 8 * data.length) :
    ∃ d, Signed.tryEncode ⟨st, L, f, o, .Big⟩ data v = .ok d ∧
      d.length = data.length ∧ ByteWF d ∧
      (∀ pos, spanBig st L pos → bufBit d pos =
        (signedRawPat ⟨st, L, f, o, .Big⟩ v).testBit (L - 1 - (canon pos - canon st))) ∧
      (∀ pos, ¬spanBig st L pos → bufBit d pos = bufBit data pos) := by
  have hbound : ∀ i, i < L → (canon st + i) / 8 < data.length := by
    intro i hi
    unfold canon
    omega
  obtain ⟨d, hd⟩ := writeBitsBig_isSome (signedRawPat ⟨st, L, f, o, .Big⟩ v) L st data hbound
  obtain ⟨hlen, hwfd, hbits⟩ := writeBitsBig_spec _ L st data d hd
  refine ⟨d, ?_, hlen, hwfd hwf, ?_, ?_⟩
  · simp only [Signed.tryEncode]
    rw [if_neg (not_lt.mpr hmin), if_neg (not_lt.mpr hmax)]
    rw [if_neg (by omega), hd]
  · intro pos hpos
    unfold spanBig at hpos
    rw [hbits pos, if_pos hpos]
  · intro pos hpos
    unfold spanBig at hpos
    rw [hbits pos, if_neg hpos]

/-! ## Characterizations of the decode arms -/

theorem Unsigned.tryDecode_little_eq {st L : ℕ} {f o : ℚ} {data : List ℕ}
    (hav : st + L ≤ 8 * data.length) :
    Unsigned.tryDecode ⟨st, L, f, o, .Little⟩ data =
      .ok ((((bytesLE data (st / 8) (Min.min 8 ((st + L - 1) / 8 - st / 8 + 1)) >>> (st % 8))
        &&& mask L 0 : ℕ) : ℚ) * f + o) := by
  simp only [Unsigned.tryDecode]
  rw [if_neg (by omega)]

theorem Unsigned.tryDecode_little_err {st L : ℕ} {f o : ℚ} {data : List ℕ}
    (hav : 8 * data.length < st + L) :
    Unsigned.tryDecode ⟨st, L, f, o, .Little⟩ data = .error .NotEnoughData := by
  simp only [Unsigned.tryDecode]
  rw [if_pos (by omega)]

theorem Unsigned.tryDecode_big_eq {st L : ℕ} {f o : ℚ} {data : List ℕ}
    (hav : (7 - st % 8) + 8 * (st / 8) + L ≤ 8 * data.length) :
    Unsigned.tryDecode ⟨st, L, f, o, .Big⟩ data =
      .ok ((((bytesBE data (st / 8)
        (Min.min 8 (((7 - st % 8) + 8 * (st / 8) + L - 1) / 8 - st / 8 + 1)) >>> (7 - st % 8))
        &&& mask L 0 : ℕ) : ℚ) * f + o) := by
  simp only [Unsigned.tryDecode]
  rw [if_neg (by omega)]

theorem Unsigned.tryDecode_big_err {st L : ℕ} {f o : ℚ} {data : List ℕ}
    (hav : 8 * data.length < (7 - st % 8) + 8 * (st / 8) + L) :
    Unsigned.tryDecode ⟨st, L, f, o, .Big⟩ data = .error .NotEnoughData := by
  simp only [Unsigned.tryDecode]
  rw [if_pos (by omega)]

theorem Signed.rawLittle_eq {st L : ℕ} {f o : ℚ} {e : Endian} (data : List ℕ) :
    Signed.rawLittle ⟨st, L, f, o, e⟩ data =
      asrPat (bytesLE data (st / 8) (Min.min 8 ((st + L - 1) / 8 - st / 8 + 1))) (st % 8)
        &&& mask L 0 := rfl

theorem Signed.rawBig_eq {st L : ℕ} {f o : ℚ} {e : Endian} (data : List ℕ) :
    Signed.rawBig ⟨st, L, f, o, e⟩ data =
      asrPat (bytesBE data (st / 8)
        (Min.min 8 (((7 - st % 8) + 8 * (st / 8) + L - 1) / 8 - st / 8 + 1))) (7 - st % 8)
        &&& mask L 0 := rfl

theorem Signed.rawLittle_lt {sig : Signed} {data : List ℕ} (hL1 : 1 ≤ sig.length)
    (hL : sig.length ≤ 64) : sig.rawLittle data < 2 ^ sig.length := by
  unfold Signed.rawLittle
  rw [mask_zero_eq hL1 hL, and_two_pow_sub_one]
  exact Nat.mod_lt _ (Nat.two_pow_pos _)

theorem Signed.rawBig_lt {sig : Signed} {data : List ℕ} (hL1 : 1 ≤ sig.length)
    (hL : sig.length ≤ 64) : sig.rawBig data < 2 ^ sig.length := by
  unfold Signed.rawBig
  rw [mask_zero_eq hL1 hL, and_two_pow_sub_one]
  exact Nat.mod_lt _ (Nat.two_pow_pos _)

theorem Signed.decode_little_eq {st L : ℕ} {f o : ℚ} {data : List ℕ}
    (hav : st + L ≤ 8 * data.length) :
    Signed.tryDecode ⟨st, L, f, o, .Little⟩ data =
      .ok ((i64OfPat (signExtendPat L (Signed.rawLittle ⟨st, L, f, o, .Little⟩ data)) : ℚ)
        * f + o) := by
  simp only [Signed.tryDecode]
  rw [if_neg (by omega)]

theorem Signed.decode_little_err {st L : ℕ} {f o : ℚ} {data : List ℕ}
    (hav : 8 * data.length < st + L) :
    Signed.tryDecode ⟨st, L, f, o, .Little⟩ data = .error .NotEnoughData := by
  simp only [Signed.tryDecode]
  rw [if_pos (by omega)]

theorem Signed.decode_big_eq {st L : ℕ} {f o : ℚ} {data : List ℕ}
    (hav : (7 - st % 8) + 8 * (st / 8) + L ≤ 8 * data.length) :
    Signed.tryDecode ⟨st, L, f, o, .Big⟩ data =
      .ok ((i64OfPat (signExtendPat L (Signed.rawBig ⟨st, L, f, o, .Big⟩ data)) : ℚ)
        * f + o) := by
  simp only [Signed.tryDecode]
  rw [if_neg (by omega)]

theorem Signed.decode_big_err {st L : ℕ} {f o : ℚ} {data : List ℕ}
    (hav : 8 * data.length < (7 - st % 8) + 8 * (st / 8) + L) :
    Signed.tryDecode ⟨st, L, f, o, .Big⟩ data = .error .NotEnoughData := by
  simp only [Signed.tryDecode]
  rw [if_pos (by omega)]

theorem Bit.tryDecode_err {sig : Bit} {data : List ℕ}
    (hav : 8 * data.length ≤ sig.start) :
    sig.tryDecode data = .error () := by
  simp only [Bit.tryDecode]
  rw [if_pos (by omega)]

/-! ## Recovering the raw value from the decode windows -/

/-- The little-endian decode window recovers any raw value whose bits sit at
positions `start + i`, as long as the span fits the 8-byte window
(`start % 8 + length ≤ 64`). -/
theorem decodeLE_extract {d : List ℕ} (hwf : ByteWF d) {st L raw : ℕ}
    (hL1 : 1 ≤ L) (hraw : raw < 2 ^ L) (hfit : st % 8 + L ≤ 64)
    (hbits : ∀ i, i < L → bufBit d (st + i) = raw.testBit i) :
    (bytesLE d (st / 8) (Min.min 8 ((st + L - 1) / 8 - st / 8 + 1)) >>> (st % 8))
      &&& mask L 0 = raw := by
  have hn : Min.min 8 ((st + L - 1) / 8 - st / 8 + 1) = (st + L - 1) / 8 - st / 8 + 1 := by
    omega
  rw [hn]
  apply extractLE_eq_raw hwf hL1 (by omega) hraw (by omega)
  intro i hi
  have e : 8 * (st / 8) + (st % 8 + i) = st + i := by omega
  rw [e]
  exact hbits i hi

/-- The byte-reversed decode window recovers any raw value written in the
canonical big-endian order, as long as the span fits the 8-byte window and
the decode extraction is aligned with the write walk
(`2 * (7 - start % 8) + length ≡ 0 (mod 8)`). -/
theorem decodeBE_extract {d : List ℕ} (hwf : ByteWF d) {st L raw : ℕ}
    (hL1 : 1 ≤ L) (hraw : raw < 2 ^ L) (hfit : (7 - st % 8) + L ≤ 64)
    (halign : (2 * (7 - st % 8) + L) % 8 = 0)
    (hbits : ∀ pos, spanBig st L pos →
      bufBit d pos = raw.testBit (L - 1 - (canon pos - canon st))) :
    (bytesBE d (st / 8) (Min.min 8 (((7 - st % 8) + 8 * (st / 8) + L - 1) / 8 - st / 8 + 1))
      >>> (7 - st % 8)) &&& mask L 0 = raw := by
  have hend : ((7 - st % 8) + 8 * (st / 8) + L - 1) / 8 - st / 8 + 1 =
      ((7 - st % 8) + L - 1) / 8 + 1 := by
    omega
  rw [hend]
  set n := ((7 - st % 8) + L - 1) / 8 + 1 with hn
  have h8n : 8 * n = 2 * (7 - st % 8) + L := by omega
  have hnmin : Min.min 8 n = n := by omega
  rw [hnmin]
  apply Nat.eq_of_testBit_eq
  intro j
  rw [extractBE_testBit hwf hL1 (by omega) (by omega) j]
  by_cases hj : j < L
  · rw [decide_eq_true hj, Bool.true_and]
    set q := 8 * (st / 8 + (n - 1 - ((7 - st % 8) + j) / 8)) + ((7 - st % 8) + j) % 8
      with hqdef
    have hcq : canon q = canon st + (L - 1 - j) := by
      unfold canon
      omega
    rw [hbits q (by unfold spanBig; omega), hcq]
    congr 1
    omega
  · rw [decide_eq_false hj, Bool.false_and]
    exact (Nat.testBit_lt_two_pow (lt_of_lt_of_le hraw
      (Nat.pow_le_pow_right (by norm_num) (by omega)))).symm

/-- Decoding the two's-complement pattern of an in-range signed value
recovers the value. -/
theorem signExtend_roundtrip {L : ℕ} {v : ℤ} (hL1 : 1 ≤ L) (hL : L ≤ 64)
    (hlo : -(2 ^ (L - 1)) ≤ v) (hhi : v < 2 ^ (L - 1)) :
    i64OfPat (signExtendPat L ((v % (2 ^ L : ℤ)).toNat)) = v := by
  have hPz : (2 : ℤ) ^ L = 2 * 2 ^ (L - 1) := by
    conv_lhs => rw [← Nat.sub_one_add_one (by omega : L ≠ 0)]
    rw [pow_succ]
    ring
  have hPn : (2 : ℕ) ^ L = 2 * 2 ^ (L - 1) := by
    conv_lhs => rw [← Nat.sub_one_add_one (by omega : L ≠ 0)]
    rw [pow_succ]
    ring
  have hcastL : ((2 ^ L : ℕ) : ℤ) = 2 ^ L := by push_cast; rfl
  have hcastL1 : ((2 ^ (L - 1) : ℕ) : ℤ) = 2 ^ (L - 1) := by push_cast; rfl
  set raw := (v % (2 ^ L : ℤ)).toNat with hrdef
  by_cases hv : v < 0
  · have hmod : v % (2 ^ L : ℤ) = v + 2 ^ L := emod_two_pow_of_neg hL1 hlo hv
    have hrz : (raw : ℤ) = v + 2 ^ L := by
      rw [hrdef, hmod]
      exact Int.toNat_of_nonneg (by omega)
    have hraw_lt : raw < 2 ^ L := by omega
    have htb : raw.testBit (L - 1) = true := (testBit_top_iff hL1 hraw_lt).mpr (by omega)
    rw [signExtendPat_eq hL1 hL hraw_lt, if_pos htb]
    omega
  · have hmod : v % (2 ^ L : ℤ) = v := Int.emod_eq_of_lt (by omega) (by omega)
    have hrz : (raw : ℤ) = v := by
      rw [hrdef, hmod]
      exact Int.toNat_of_nonneg (by omega)
    have hraw_lt : raw < 2 ^ L := by omega
    have htb : raw.testBit (L - 1) = false := by
      rcases hb : raw.testBit (L - 1)
      · rfl
      · have := (testBit_top_iff hL1 hraw_lt).mp hb
        omega
    rw [signExtendPat_eq hL1 hL hraw_lt, if_neg (by simp [htb])]
    omega

/-! ## Round trips with factor 1 and offset 0 -/

theorem unsigned_roundtrip_little {st L v : ℕ} {data : List ℕ}
    (hwf : ByteWF data) (hL1 : 1 ≤ L) (hL : L ≤ 64) (hv : v < 2 ^ L)
    (hav : st + L ≤ 8 * data.length) (hfit : st % 8 + L ≤ 64) :
    ∃ d, Unsigned.tryEncode ⟨st, L, 1, 0, .Little⟩ data (v : ℚ) = .ok d ∧
      Unsigned.tryDecode ⟨st, L, 1, 0, .Little⟩ d = .ok (v : ℚ) := by
  have hmin : Unsigned.min ⟨st, L, 1, 0, .Little⟩ ≤ (v : ℚ) := by
    unfold Unsigned.min
    positivity
  have hmax : (v : ℚ) ≤ Unsigned.max ⟨st, L, 1, 0, .Little⟩ := by
    unfold Unsigned.max
    simp only
    rw [mask_zero_eq hL1 hL]
    have h1 : ((2 ^ L - 1 : ℕ) : ℚ) * 1 + 0 = ((2 ^ L - 1 : ℕ) : ℚ) := by ring
    rw [h1]
    exact_mod_cast (by omega : v ≤ 2 ^ L - 1)
  obtain ⟨d, hok, hlen, hwfd, hbits, _⟩ := Unsigned.tryEncode_little_ok hwf hmin hmax hav
  have hraw : unsignedRawPat ⟨st, L, 1, 0, .Little⟩ (v : ℚ) = v := unsignedRawPat_id hL1 hL hv
  refine ⟨d, hok, ?_⟩
  rw [Unsigned.tryDecode_little_eq (by rw [hlen]; exact hav)]
  have hext : (bytesLE d (st / 8) (Min.min 8 ((st + L - 1) / 8 - st / 8 + 1)) >>> (st % 8))
      &&& mask L 0 = v :=
    decodeLE_extract hwfd hL1 hv hfit (by
      intro i hi
      rw [hbits i hi, hraw])
  rw [hext]
  norm_num

theorem unsigned_roundtrip_big {st L v : ℕ} {data : List ℕ}
    (hwf : ByteWF data) (hL1 : 1 ≤ L) (hL : L ≤ 64) (hv : v < 2 ^ L)
    (hav : (7 - st % 8) + 8 * (st / 8) + L ≤ 8 * data.length)
    (hfit : (7 - st % 8) + L ≤ 64) (halign : (2 * (7 - st % 8) + L) % 8 = 0) :
    ∃ d, Unsigned.tryEncode ⟨st, L, 1, 0, .Big⟩ data (v : ℚ) = .ok d ∧
      Unsigned.tryDecode ⟨st, L, 1, 0, .Big⟩ d = .ok (v : ℚ) := by
  have hmin : Unsigned.min ⟨st, L, 1, 0, .Big⟩ ≤ (v : ℚ) := by
    unfold Unsigned.min
    positivity
  have hmax : (v : ℚ) ≤ Unsigned.max ⟨st, L, 1, 0, .Big⟩ := by
    unfold Unsigned.max
    simp only
    rw [mask_zero_eq hL1 hL]
    have h1 : ((2 ^ L - 1 : ℕ) : ℚ) * 1 + 0 = ((2 ^ L - 1 : ℕ) : ℚ) := by ring
    rw [h1]
    exact_mod_cast (by omega : v ≤ 2 ^ L - 1)
  obtain ⟨d, hok, hlen, hwfd, hbits, _⟩ := Unsigned.tryEncode_big_ok hwf hmin hmax hav
  have hraw : unsignedRawPat ⟨st, L, 1, 0, .Big⟩ (v : ℚ) = v := unsignedRawPat_id hL1 hL hv
  refine ⟨d, hok, ?_⟩
  rw [Unsigned.tryDecode_big_eq (by rw [hlen]; exact hav)]
  have hext : (bytesBE d (st / 8)
      (Min.min 8 (((7 - st % 8) + 8 * (st / 8) + L - 1) / 8 - st / 8 + 1)) >>> (7 - st % 8))
      &&& mask L 0 = v :=
    decodeBE_extract hwfd hL1 hv hfit halign (by
      intro pos hpos
      rw [hbits pos hpos, hraw])
  rw [hext]
  norm_num

theorem signed_roundtrip_little {st L : ℕ} {v : ℤ} {data : List ℕ}
    (hwf : ByteWF data) (hL1 : 1 ≤ L) (hL : L ≤ 64)
    (hlo : -(2 ^ (L - 1)) ≤ v) (hhi : v < 2 ^ (L - 1))
    (hav : st + L ≤ 8 * data.length) (hfit : st % 8 + L ≤ 64) :
    ∃ d, Signed.tryEncode ⟨st, L, 1, 0, .Little⟩ data (v : ℚ) = .ok d ∧
      Signed.tryDecode ⟨st, L, 1, 0, .Little⟩ d = .ok (v : ℚ) := by
  have hcastL1 : ((2 ^ (L - 1) : ℕ) : ℤ) = 2 ^ (L - 1) := by push_cast; rfl
  have hmin : Signed.min ⟨st, L, 1, 0, .Little⟩ ≤ (v : ℚ) := by
    unfold Signed.min
    simp only
    rw [signedMin_eq hL1 hL]
    have h2 : (-(2 : ℚ) ^ (L - 1)) ≤ (v : ℚ) := by exact_mod_cast hlo
    push_cast
    linarith
  have hmax : (v : ℚ) ≤ Signed.max ⟨st, L, 1, 0, .Little⟩ := by
    unfold Signed.max
    simp only
    have hmle : (2 ^ (L - 1) - 1 : ℤ) ≤ (mask (L - 1) 0 : ℤ) := by
      by_cases hL2 : 2 ≤ L
      · rw [mask_zero_eq (by omega) (by omega)]
        push_cast [Nat.one_le_two_pow]
        omega
      · have hLe : L = 1 := by omega
        subst hLe
        calc (2 ^ (1 - 1) - 1 : ℤ) = 0 := by norm_num
          _ ≤ (mask (1 - 1) 0 : ℤ) := Int.natCast_nonneg _
    have h2 : ((mask (L - 1) 0 : ℕ) : ℚ) * 1 + 0 = ((mask (L - 1) 0 : ℕ) : ℚ) := by ring
    rw [h2]
    calc (v : ℚ) ≤ ((2 ^ (L - 1) - 1 : ℤ) : ℚ) := by exact_mod_cast (by omega : v ≤ 2 ^ (L - 1) - 1)
      _ ≤ ((mask (L - 1) 0 : ℕ) : ℚ) := by exact_mod_cast hmle
  obtain ⟨d, hok, hlen, hwfd, hbits, _⟩ := Signed.encode_little_ok hwf hmin hmax hav
  have hraw : signedRawPat ⟨st, L, 1, 0, .Little⟩ (v : ℚ) = (v % (2 ^ L : ℤ)).toNat :=
    signedRawPat_id hL1 hL hlo hhi
  have hrawlt : (v % (2 ^ L : ℤ)).toNat < 2 ^ L := by
    have hnn : 0 ≤ v % (2 ^ L : ℤ) := Int.emod_nonneg _ (by positivity)
    have hlt : v % (2 ^ L : ℤ) < 2 ^ L := Int.emod_lt_of_pos _ (by positivity)
    have hcastL : ((2 ^ L : ℕ) : ℤ) = 2 ^ L := by push_cast; rfl
    omega
  refine ⟨d, hok, ?_⟩
  rw [Signed.decode_little_eq (by rw [hlen]; exact hav), Signed.rawLittle_eq,
    asrPat_and_mask hL1 (by omega)]
  have hext : (bytesLE d (st / 8) (Min.min 8 ((st + L - 1) / 8 - st / 8 + 1)) >>> (st % 8))
      &&& mask L 0 = (v % (2 ^ L : ℤ)).toNat :=
    decodeLE_extract hwfd hL1 hrawlt hfit (by
      intro i hi
      rw [hbits i hi, hraw])
  rw [hext, signExtend_roundtrip hL1 hL hlo hhi]
  ring_nf

theorem signed_roundtrip_big {st L : ℕ} {v : ℤ} {data : List ℕ}
    (hwf : ByteWF data) (hL1 : 1 ≤ L) (hL : L ≤ 64)
    (hlo : -(2 ^ (L - 1)) ≤ v) (hhi : v < 2 ^ (L - 1))
    (hav : (7 - st % 8) + 8 * (st / 8) + L ≤ 8 * data.length)
    (hfit : (7 - st % 8) + L ≤ 64) (halign : (2 * (7 - st % 8) + L) % 8 = 0) :
    ∃ d, Signed.tryEncode ⟨st, L, 1, 0, .Big⟩ data (v : ℚ) = .ok d ∧
      Signed.tryDecode ⟨st, L, 1, 0, .Big⟩ d = .ok (v : ℚ) := by
  have hmin : Signed.min ⟨st, L, 1, 0, .Big⟩ ≤ (v : ℚ) := by
    unfold Signed.min
    simp only
    rw [signedMin_eq hL1 hL]
    have h2 : (-(2 : ℚ) ^ (L - 1)) ≤ (v : ℚ) := by exact_mod_cast hlo
    push_cast
    linarith
  have hmax : (v : ℚ) ≤ Signed.max ⟨st, L, 1, 0, .Big⟩ := by
    unfold Signed.max
    simp only
    have hmle : (2 ^ (L - 1) - 1 : ℤ) ≤ (mask (L - 1) 0 : ℤ) := by
      by_cases hL2 : 2 ≤ L
      · rw [mask_zero_eq (by omega) (by omega)]
        push_cast [Nat.one_le_two_pow]
        omega
      · have hLe : L = 1 := by omega
        subst hLe
        calc (2 ^ (1 - 1) - 1 : ℤ) = 0 := by norm_num
          _ ≤ (mask (1 - 1) 0 : ℤ) := Int.natCast_nonneg _
    have h2 : ((mask (L - 1) 0 : ℕ) : ℚ) * 1 + 0 = ((mask (L - 1) 0 : ℕ) : ℚ) := by ring
    rw [h2]
    calc (v : ℚ) ≤ ((2 ^ (L - 1) - 1 : ℤ) : ℚ) := by exact_mod_cast (by omega : v ≤ 2 ^ (L - 1) - 1)
      _ ≤ ((mask (L - 1) 0 : ℕ) : ℚ) := by exact_mod_cast hmle
  obtain ⟨d, hok, hlen, hwfd, hbits, _⟩ := Signed.encode_big_ok hwf hmin hmax hav
  have hraw : signedRawPat ⟨st, L, 1, 0, .Big⟩ (v : ℚ) = (v % (2 ^ L : ℤ)).toNat :=
    signedRawPat_id hL1 hL hlo hhi
  have hrawlt : (v % (2 ^ L : ℤ)).toNat < 2 ^ L := by
    have hnn : 0 ≤ v % (2 ^ L : ℤ) := Int.emod_nonneg _ (by positivity)
    have hlt : v % (2 ^ L : ℤ) < 2 ^ L := Int.emod_lt_of_pos _ (by positivity)
    have hcastL : ((2 ^ L : ℕ) : ℤ) = 2 ^ L := by push_cast; rfl
    omega
  refine ⟨d, hok, ?_⟩
  rw [Signed.decode_big_eq (by rw [hlen]; exact hav), Signed.rawBig_eq,
    asrPat_and_mask hL1 (by omega)]
  have hext : (bytesBE d (st / 8)
      (Min.min 8 (((7 - st % 8) + 8 * (st / 8) + L - 1) / 8 - st / 8 + 1)) >>> (7 - st % 8))
      &&& mask L 0 = (v % (2 ^ L : ℤ)).toNat :=
    decodeBE_extract hwfd hL1 hrawlt hfit halign (by
      intro pos hpos
      rw [hbits pos hpos, hraw])
  rw [hext, signExtend_roundtrip hL1 hL hlo hhi]
  ring_nf

/-- Bit span occupied by a multi-bit signal under either endianness. -/
def span (e : Endian) (start length pos : ℕ) : Prop :=
  match e with
  | .Little => spanLittle start length pos
  | .Big => spanBig start length pos

/-! ## The claims -/

/-- C9: for both integer signal constructors (`Unsigned::new`, `Signed::new`)
and all `start`, `factor`, `offset`, `endian` arguments, `length = 0` is
rejected with `LengthError::LengthZero`, `length > 64` with
`LengthError::LengthGreater64`, and any `length` in `1..=64` yields `Ok`
with a descriptor holding exactly the given fields. -/
theorem C9_constructor_length_validation (start : ℕ) (f o : ℚ) (e : Endian) :
    Unsigned.new start 0 f o e = .error .LengthZero ∧
    Signed.new start 0 f o e = .error .LengthZero ∧
    (∀ L, 64 < L → Unsigned.new start L f o e = .error .LengthGreater64) ∧
    (∀ L, 64 < L → Signed.new start L f o e = .error .LengthGreater64) ∧
    (∀ L, 1 ≤ L → L ≤ 64 → Unsigned.new start L f o e = .ok ⟨start, L, f, o, e⟩) ∧
    (∀ L, 1 ≤ L → L ≤ 64 → Signed.new start L f o e = .ok ⟨start, L, f, o, e⟩) := by
  refine ⟨?_, ?_, ?_, ?_, ?_, ?_⟩
  · simp [Unsigned.new]
  · simp [Signed.new]
  · intro L hL
    simp only [Unsigned.new]
    rw [if_neg (by omega), if_pos (by omega)]
  · intro L hL
    simp only [Signed.new]
    rw [if_neg (by omega), if_pos (by omega)]
  · intro L h1 h64
    simp only [Unsigned.new]
    rw [if_neg (by omega), if_neg (by omega)]
  · intro L h1 h64
    simp only [Signed.new]
    rw [if_neg (by omega), if_neg (by omega)]

/-- Witness for C9 at concrete inputs, among them the spec scenario
`Unsigned::new(1, 65, 1.0, 0.0, Little)`. -/
theorem C9_witness :
    Unsigned.new 1 65 1 0 Endian.Little = .error .LengthGreater64 ∧
    Signed.new 5 8 2 3 Endian.Big = .ok ⟨5, 8, 2, 3, Endian.Big⟩ := by
  exact ⟨(C9_constructor_length_validation 1 1 0 Endian.Little).2.2.1 65 (by norm_num),
    (C9_constructor_length_validation 5 2 3 Endian.Big).2.2.2.2.2 8 (by norm_num) (by norm_num)⟩

/-- C7: encoding the value 255.0 with the descriptor
`Unsigned::new(3, 8, 1.0, 0.0, Big)` into the two-byte buffer `[0, 0]`
succeeds and leaves the buffer equal to `[0x0F, 0xF0]`. -/
theorem C7_encode_big_concrete :
    Unsigned.new 3 8 1 0 Endian.Big = .ok ⟨3, 8, 1, 0, Endian.Big⟩ ∧
    Unsigned.tryEncode ⟨3, 8, 1, 0, Endian.Big⟩ [0, 0] 255 = .ok [0x0F, 0xF0] := by
  constructor
  · simp only [Unsigned.new]
    rw [if_neg (by omega), if_neg (by omega)]
  · have hraw : unsignedRawPat ⟨3, 8, 1, 0, Endian.Big⟩ 255 = 255 := by
      unfold unsignedRawPat
      simp only
      rw [show ((255 : ℚ) - 0) / 1 = ((255 : ℕ) : ℚ) by norm_num, ratTrunc_natCast,
        toU64_of_bounds (by norm_num) (by norm_num), Int.toNat_natCast]
      decide
    have hminOK : ¬(255 : ℚ) < Unsigned.min ⟨3, 8, 1, 0, Endian.Big⟩ := by
      rw [show Unsigned.min ⟨3, 8, 1, 0, Endian.Big⟩ = 0 from rfl]
      norm_num
    have hmaxOK : ¬(255 : ℚ) > Unsigned.max ⟨3, 8, 1, 0, Endian.Big⟩ := by
      rw [show Unsigned.max ⟨3, 8, 1, 0, Endian.Big⟩ = ((mask 8 0 : ℕ) : ℚ) * 1 + 0 from rfl,
        show mask 8 0 = 255 from by decide]
      norm_num
    simp only [Unsigned.tryEncode]
    rw [if_neg hminOK, if_neg hmaxOK, if_neg (by decide), hraw,
      show writeBitsBig 255 8 3 [0, 0] = some [15, 240] from by decide]

/-- C1 counterexample: with the valid descriptor
`Unsigned::new(6, 8, 1.0, 0.0, Big)` over a two-byte buffer that passes the
availability check, encoding the in-range value 255.0 succeeds and yields
`[0x7F, 0x80]`, but decoding the result returns 192.0, not 255.0: the
big-endian decode extraction is misaligned with the encode-side bit walk. -/
theorem C1_roundtrip_counterexample :
    Unsigned.tryEncode ⟨6, 8, 1, 0, Endian.Big⟩ [0, 0] 255 = .ok [0x7F, 0x80] ∧
    Unsigned.tryDecode ⟨6, 8, 1, 0, Endian.Big⟩ [0x7F, 0x80] = .ok 192 ∧
    (192 : ℚ) ≠ 255 := by
  refine ⟨?_, ?_, by norm_num⟩
  · have hraw : unsignedRawPat ⟨6, 8, 1, 0, Endian.Big⟩ 255 = 255 := by
      unfold unsignedRawPat
      simp only
      rw [show ((255 : ℚ) - 0) / 1 = ((255 : ℕ) : ℚ) by norm_num, ratTrunc_natCast,
        toU64_of_bounds (by norm_num) (by norm_num), Int.toNat_natCast]
      decide
    have hminOK : ¬(255 : ℚ) < Unsigned.min ⟨6, 8, 1, 0, Endian.Big⟩ := by
      rw [show Unsigned.min ⟨6, 8, 1, 0, Endian.Big⟩ = 0 from rfl]
      norm_num
    have hmaxOK : ¬(255 : ℚ) > Unsigned.max ⟨6, 8, 1, 0, Endian.Big⟩ := by
      rw [show Unsigned.max ⟨6, 8, 1, 0, Endian.Big⟩ = ((mask 8 0 : ℕ) : ℚ) * 1 + 0 from rfl,
        show mask 8 0 = 255 from by decide]
      norm_num
    simp only [Unsigned.tryEncode]
    rw [if_neg hminOK, if_neg hmaxOK, if_neg (by decide), hraw,
      show writeBitsBig 255 8 6 [0, 0] = some [127, 128] from by decide]
  · have h := @Unsigned.tryDecode_big_eq 6 8 1 0 [0x7F, 0x80] (by norm_num)
    rw [show (bytesBE [0x7F, 0x80] (6 / 8)
        (Min.min 8 (((7 - 6 % 8) + 8 * (6 / 8) + 8 - 1) / 8 - 6 / 8 + 1)) >>> (7 - 6 % 8))
        &&& mask 8 0 = 192 from by decide] at h
    rw [h]
    norm_num

set_option maxRecDepth 8000 in
/-- C2 counterexample: for `Unsigned::new(7, 64, 1.0, 0.0, Little)` over a
nine-byte buffer whose span passes the availability check, the decode keeps
only the first 8 bytes of the 9-byte span, returning 0.0, while the
reference extraction over the full byte range yields `2 ^ 57`. -/
theorem C2_little_reference_counterexample :
    Unsigned.tryDecode ⟨7, 64, 1, 0, Endian.Little⟩ [0, 0, 0, 0, 0, 0, 0, 0, 1] = .ok 0 ∧
    refExtractLittle 7 64 [0, 0, 0, 0, 0, 0, 0, 0, 1] = 2 ^ 57 ∧
    ((2 ^ 57 : ℕ) : ℚ) * 1 + 0 ≠ (0 : ℚ) := by
  refine ⟨?_, by decide, by norm_num⟩
  have h := @Unsigned.tryDecode_little_eq 7 64 1 0 [0, 0, 0, 0, 0, 0, 0, 0, 1]
    (by norm_num)
  rw [show (bytesLE [0, 0, 0, 0, 0, 0, 0, 0, 1] (7 / 8)
      (Min.min 8 ((7 + 64 - 1) / 8 - 7 / 8 + 1)) >>> (7 % 8)) &&& mask 64 0 = 0
      from by decide] at h
  rw [h]
  norm_num

/-- C2 amended: for every Little-endian `Unsigned` descriptor whose span
also fits the 8-byte decode window (`start % 8 + length ≤ 64`) and every
buffer passing the availability check, `try_decode` returns
`raw * factor + offset` with `raw` the reference extraction over bytes
`start/8 .. (start+length-1)/8`. -/
theorem C2_little_decode_reference (sig : Unsigned) (data : List ℕ)
    (hend : sig.endian = .Little) (hL1 : 1 ≤ sig.length)
    (hav : sig.start + sig.length ≤ 8 * data.length)
    (hfit : sig.start % 8 + sig.length ≤ 64) :
    sig.tryDecode data =
      .ok ((refExtractLittle sig.start sig.length data : ℚ) * sig.factor + sig.offset) := by
  obtain ⟨st, L, f, o, e⟩ := sig
  simp only at hend hL1 hav hfit
  subst hend
  rw [Unsigned.tryDecode_little_eq hav]
  unfold refExtractLittle
  rw [mask_zero_eq hL1 (by omega),
    show Min.min 8 ((st + L - 1) / 8 - st / 8 + 1) = (st + L - 1) / 8 - st / 8 + 1 by omega]

/-- Witness for C2 at the spec scenario
`Unsigned::new(0, 8, 1.0, 0.0, Little)` over `[255, 0, 0, 0, 0, 0, 0, 0]`. -/
theorem C2_witness :
    Unsigned.tryDecode ⟨0, 8, 1, 0, Endian.Little⟩ [255, 0, 0, 0, 0, 0, 0, 0] =
      .ok ((refExtractLittle 0 8 [255, 0, 0, 0, 0, 0, 0, 0] : ℚ) * 1 + 0) := by
  exact C2_little_decode_reference ⟨0, 8, 1, 0, Endian.Little⟩ [255, 0, 0, 0, 0, 0, 0, 0]
    rfl (by norm_num) (by norm_num) (by norm_num)

/-- C4: for every signal type, a buffer failing the availability check makes
`try_decode` return its not-enough-data error: `Bit` fails with its unit
error (the only failure mode of its `TryDecode` implementation, whose error
type is `()`), `Unsigned` and `Signed` with `DecodeError::NotEnoughData`;
moreover the byte index `start / 8` used by the `Bit` decode success path is
always inside the buffer when the check passes. -/
theorem C4_decode_not_enough_data :
    (∀ (sig : Bit) (data : List ℕ), 8 * data.length ≤ sig.start →
      sig.tryDecode data = .error ()) ∧
    (∀ (sig : Bit) (data : List ℕ), sig.start < 8 * data.length →
      sig.start / 8 < data.length) ∧
    (∀ (sig : Unsigned) (data : List ℕ), sig.endian = .Little →
      8 * data.length < sig.start + sig.length →
      sig.tryDecode data = .error DecodeError.NotEnoughData) ∧
    (∀ (sig : Unsigned) (data : List ℕ), sig.endian = .Big →
      8 * data.length < (7 - sig.start % 8) + 8 * (sig.start / 8) + sig.length →
      sig.tryDecode data = .error DecodeError.NotEnoughData) ∧
    (∀ (sig : Signed) (data : List ℕ), sig.endian = .Little →
      8 * data.length < sig.start + sig.length →
      sig.tryDecode data = .error DecodeError.NotEnoughData) ∧
    (∀ (sig : Signed) (data : List ℕ), sig.endian = .Big →
      8 * data.length < (7 - sig.start % 8) + 8 * (sig.start / 8) + sig.length →
      sig.tryDecode data = .error DecodeError.NotEnoughData) := by
  refine ⟨?_, ?_, ?_, ?_, ?_, ?_⟩
  · intro sig data h
    exact Bit.tryDecode_err h
  · intro sig data h
    omega
  · intro sig data hend h
    obtain ⟨st, L, f, o, e⟩ := sig
    simp only at hend h
    subst hend
    exact Unsigned.tryDecode_little_err h
  · intro sig data hend h
    obtain ⟨st, L, f, o, e⟩ := sig
    simp only at hend h
    subst hend
    exact Unsigned.tryDecode_big_err h
  · intro sig data hend h
    obtain ⟨st, L, f, o, e⟩ := sig
    simp only at hend h
    subst hend
    exact Signed.decode_little_err h
  · intro sig data hend h
    obtain ⟨st, L, f, o, e⟩ := sig
    simp only at hend h
    subst hend
    exact Signed.decode_big_err h

/-- Inversion of a successful `Unsigned::try_encode` (`Little` arm): the
write loop ran and produced the final buffer. -/
theorem Unsigned.tryEncode_little_inv {st L : ℕ} {f o : ℚ} {data d : List ℕ} {v : ℚ}
    (hok : Unsigned.tryEncode ⟨st, L, f, o, .Little⟩ data v = .ok d) :
    writeBitsLittle st (unsignedRawPat ⟨st, L, f, o, .Little⟩ v) L data = some d := by
  simp only [Unsigned.tryEncode] at hok
  by_cases hc1 : v < Unsigned.min ⟨st, L, f, o, .Little⟩
  · rw [if_pos hc1] at hok
    exact absurd hok (by simp)
  rw [if_neg hc1] at hok
  by_cases hc2 : v > Unsigned.max ⟨st, L, f, o, .Little⟩
  · rw [if_pos hc2] at hok
    exact absurd hok (by simp)
  rw [if_neg hc2] at hok
  by_cases hc3 : st + L > 8 * data.length
  · rw [if_pos hc3] at hok
    exact absurd hok (by simp)
  rw [if_neg hc3] at hok
  rcases hw : writeBitsLittle st (unsignedRawPat ⟨st, L, f, o, .Little⟩ v) L data with _ | d0
  · rw [hw] at hok
    exact absurd hok (by simp)
  · rw [hw] at hok
    simp only at hok
    injection hok with h
    rw [h]

/-- Inversion of a successful `Unsigned::try_encode` (`Big` arm). -/
theorem Unsigned.tryEncode_big_inv {st L : ℕ} {f o : ℚ} {data d : List ℕ} {v : ℚ}
    (hok : Unsigned.tryEncode ⟨st, L, f, o, .Big⟩ data v = .ok d) :
    writeBitsBig (unsignedRawPat ⟨st, L, f, o, .Big⟩ v) L st data = some d := by
  simp only [Unsigned.tryEncode] at hok
  by_cases hc1 : v < Unsigned.min ⟨st, L, f, o, .Big⟩
  · rw [if_pos hc1] at hok
    exact absurd hok (by simp)
  rw [if_neg hc1] at hok
  by_cases hc2 : v > Unsigned.max ⟨st, L, f, o, .Big⟩
  · rw [if_pos hc2] at hok
    exact absurd hok (by simp)
  rw [if_neg hc2] at hok
  by_cases hc3 : 8 * data.length < (7 - st % 8) + 8 * (st / 8) + L
  · rw [if_pos hc3] at hok
    exact absurd hok (by simp)
  rw [if_neg hc3] at hok
  rcases hw : writeBitsBig (unsignedRawPat ⟨st, L, f, o, .Big⟩ v) L st data with _ | d0
  · rw [hw] at hok
    exact absurd hok (by simp)
  · rw [hw] at hok
    simp only at hok
    injection hok with h
    rw [h]

/-- Inversion of a successful `Signed::try_encode` (`Little` arm). -/
theorem Signed.encode_little_inv {st L : ℕ} {f o : ℚ} {data d : List ℕ} {v : ℚ}
    (hok : Signed.tryEncode ⟨st, L, f, o, .Little⟩ data v = .ok d) :
    writeBitsLittle st (signedRawPat ⟨st, L, f, o, .Little⟩ v) L data = some d := by
  simp only [Signed.tryEncode] at hok
  by_cases hc1 : v < Signed.min ⟨st, L, f, o, .Little⟩
  · rw [if_pos hc1] at hok
    exact absurd hok (by simp)
  rw [if_neg hc1] at hok
  by_cases hc2 : v > Signed.max ⟨st, L, f, o, .Little⟩
  · rw [if_pos hc2] at hok
    exact absurd hok (by simp)
  rw [if_neg hc2] at hok
  by_cases hc3 : st + L > 8 * data.length
  · rw [if_pos hc3] at hok
    exact absurd hok (by simp)
  rw [if_neg hc3] at hok
  rcases hw : writeBitsLittle st (signedRawPat ⟨st, L, f, o, .Little⟩ v) L data with _ | d0
  · rw [hw] at hok
    exact absurd hok (by simp)
  · rw [hw] at hok
    simp only at hok
    injection hok with h
    rw [h]

/-- Inversion of a successful `Signed::try_encode` (`Big` arm). -/
theorem Signed.encode_big_inv {st L : ℕ} {f o : ℚ} {data d : List ℕ} {v : ℚ}
    (hok : Signed.tryEncode ⟨st, L, f, o, .Big⟩ data v = .ok d) :
    writeBitsBig (signedRawPat ⟨st, L, f, o, .Big⟩ v) L st data = some d := by
  simp only [Signed.tryEncode] at hok
  by_cases hc1 : v < Signed.min ⟨st, L, f, o, .Big⟩
  · rw [if_pos hc1] at hok
    exact absurd hok (by simp)
  rw [if_neg hc1] at hok
  by_cases hc2 : v > Signed.max ⟨st, L, f, o, .Big⟩
  · rw [if_pos hc2] at hok
    exact absurd hok (by simp)
  rw [if_neg hc2] at hok
  by_cases hc3 : 8 * data.length < (7 - st % 8) + 8 * (st / 8) + L
  · rw [if_pos hc3] at hok
    exact absurd hok (by simp)
  rw [if_neg hc3] at hok
  rcases hw : writeBitsBig (signedRawPat ⟨st, L, f, o, .Big⟩ v) L st data with _ | d0
  · rw [hw] at hok
    exact absurd hok (by simp)
  · rw [hw] at hok
    simp only at hok
    injection hok with h
    rw [h]

/-- C3: for every Unsigned descriptor of constructible length (`1..=64`, the
range `Unsigned::new` admits), `try_encode` returns `Ok` exactly when
`min ≤ value ≤ max` (with `min = offset`, `max = (2^length - 1) * factor +
offset`) and the availability check passes; it returns `MinError` whenever
`value < min`, `MaxError` whenever `value > max` and `value ≥ min`, and
`NotEnoughData` whenever the value is in range but availability fails. -/
theorem C3_unsigned_encode_errors (sig : Unsigned) (data : List ℕ) (v : ℚ)
    (hwf : ByteWF data) (hL1 : 1 ≤ sig.length) (hL : sig.length ≤ 64) :
    (v < sig.offset → sig.tryEncode data v = .err .MinError) ∧
    (sig.offset ≤ v → ((2 ^ sig.length - 1 : ℕ) : ℚ) * sig.factor + sig.offset < v →
      sig.tryEncode data v = .err .MaxError) ∧
    (sig.offset ≤ v → v ≤ ((2 ^ sig.length - 1 : ℕ) : ℚ) * sig.factor + sig.offset →
      ¬avail sig.endian sig.start sig.length data.length →
      sig.tryEncode data v = .err .NotEnoughData) ∧
    ((sig.tryEncode data v).isOk = true ↔
      sig.offset ≤ v ∧ v ≤ ((2 ^ sig.length - 1 : ℕ) : ℚ) * sig.factor + sig.offset ∧
        avail sig.endian sig.start sig.length data.length) := by
  obtain ⟨st, L, f, o, e⟩ := sig
  simp only at hL1 hL ⊢
  have hmaxeq : Unsigned.max ⟨st, L, f, o, e⟩ = ((2 ^ L - 1 : ℕ) : ℚ) * f + o := by
    unfold Unsigned.max
    rw [mask_zero_eq hL1 hL]
  have hmin : ∀ hv : v < o, Unsigned.tryEncode ⟨st, L, f, o, e⟩ data v = .err .MinError := by
    intro hv
    simp only [Unsigned.tryEncode]
    rw [if_pos (show v < Unsigned.min ⟨st, L, f, o, e⟩ from hv)]
  have hmax : ∀ (_ : o ≤ v) (_ : ((2 ^ L - 1 : ℕ) : ℚ) * f + o < v),
      Unsigned.tryEncode ⟨st, L, f, o, e⟩ data v = .err .MaxError := by
    intro h1 h2
    simp only [Unsigned.tryEncode]
    rw [if_neg (show ¬v < Unsigned.min ⟨st, L, f, o, e⟩ from not_lt.mpr h1),
      if_pos (show v > Unsigned.max ⟨st, L, f, o, e⟩ by rw [gt_iff_lt, hmaxeq]; exact h2)]
  have hned : ∀ (_ : o ≤ v) (_ : v ≤ ((2 ^ L - 1 : ℕ) : ℚ) * f + o)
      (_ : ¬avail e st L data.length),
      Unsigned.tryEncode ⟨st, L, f, o, e⟩ data v = .err .NotEnoughData := by
    intro h1 h2 h3
    cases e
    · simp only [avail, availLittle] at h3
      simp only [Unsigned.tryEncode]
      rw [if_neg (show ¬v < Unsigned.min ⟨st, L, f, o, .Little⟩ from not_lt.mpr h1),
        if_neg (show ¬v > Unsigned.max ⟨st, L, f, o, .Little⟩ by
          rw [gt_iff_lt, hmaxeq]; exact not_lt.mpr h2), if_pos (by omega)]
    · simp only [avail, availBig] at h3
      simp only [Unsigned.tryEncode]
      rw [if_neg (show ¬v < Unsigned.min ⟨st, L, f, o, .Big⟩ from not_lt.mpr h1),
        if_neg (show ¬v > Unsigned.max ⟨st, L, f, o, .Big⟩ by
          rw [gt_iff_lt, hmaxeq]; exact not_lt.mpr h2), if_pos (by omega)]
  refine ⟨hmin, hmax, hned, ?_, ?_⟩
  · intro hok
    by_cases hc1 : v < o
    · rw [hmin hc1] at hok
      exact absurd hok (by simp [EncodeResult.isOk])
    by_cases hc2 : ((2 ^ L - 1 : ℕ) : ℚ) * f + o < v
    · rw [hmax (not_lt.mp hc1) hc2] at hok
      exact absurd hok (by simp [EncodeResult.isOk])
    by_cases hc3 : avail e st L data.length
    · exact ⟨not_lt.mp hc1, not_lt.mp hc2, hc3⟩
    · rw [hned (not_lt.mp hc1) (not_lt.mp hc2) hc3] at hok
      exact absurd hok (by simp [EncodeResult.isOk])
  · rintro ⟨h1, h2, h3⟩
    cases e
    · obtain ⟨d, hd, _⟩ := Unsigned.tryEncode_little_ok hwf h1 (by rw [hmaxeq]; exact h2)
        (by simpa [avail, availLittle] using h3)
      rw [hd]
      rfl
    · obtain ⟨d, hd, _⟩ := Unsigned.tryEncode_big_ok hwf h1 (by rw [hmaxeq]; exact h2)
        (by simpa [avail, availBig] using h3)
      rw [hd]
      rfl

/-- Witness for C3 at the spec scenario flavors: a value below the minimum,
a value above the maximum, an in-range value over a too-short buffer, and an
in-range value over a sufficient buffer. -/
theorem C3_witness :
    Unsigned.tryEncode ⟨0, 8, 1, 0, Endian.Little⟩ [0] (-1) = .err .MinError ∧
    Unsigned.tryEncode ⟨0, 8, 1, 0, Endian.Little⟩ [0] 256 = .err .MaxError ∧
    Unsigned.tryEncode ⟨0, 8, 1, 0, Endian.Little⟩ [] 10 = .err .NotEnoughData ∧
    (Unsigned.tryEncode ⟨0, 8, 1, 0, Endian.Little⟩ [0] 10).isOk = true := by
  have h1 := C3_unsigned_encode_errors ⟨0, 8, 1, 0, Endian.Little⟩ [0] (-1)
    (by decide) (by norm_num) (by norm_num)
  have h2 := C3_unsigned_encode_errors ⟨0, 8, 1, 0, Endian.Little⟩ [0] 256
    (by decide) (by norm_num) (by norm_num)
  have h3 := C3_unsigned_encode_errors ⟨0, 8, 1, 0, Endian.Little⟩ [] 10
    (by decide) (by norm_num) (by norm_num)
  have h4 := C3_unsigned_encode_errors ⟨0, 8, 1, 0, Endian.Little⟩ [0] 10
    (by decide) (by norm_num) (by norm_num)
  refine ⟨h1.1 (by norm_num), h2.2.1 (by norm_num) (by norm_num), ?_, ?_⟩
  · exact h3.2.2.1 (by norm_num) (by norm_num)
      (by simp [avail, availLittle])
  · exact h4.2.2.2.mpr ⟨by norm_num, by norm_num, by simp [avail, availLittle]⟩

/-- C10: for both integer signal types, any value passing the min/max checks
together with a buffer passing the availability check makes `try_encode`
total: every inner `Bit::try_encode` targets a byte inside the buffer, the
`unwrap` never fires, and the call returns `Ok`. -/
theorem C10_encode_totality :
    (∀ (sig : Unsigned) (data : List ℕ) (v : ℚ), ByteWF data →
      sig.min ≤ v → v ≤ sig.max →
      avail sig.endian sig.start sig.length data.length →
      ∃ d, sig.tryEncode data v = .ok d) ∧
    (∀ (sig : Signed) (data : List ℕ) (v : ℚ), ByteWF data →
      sig.min ≤ v → v ≤ sig.max →
      avail sig.endian sig.start sig.length data.length →
      ∃ d, sig.tryEncode data v = .ok d) := by
  constructor
  · intro sig data v hwf h1 h2 h3
    obtain ⟨st, L, f, o, e⟩ := sig
    cases e
    · obtain ⟨d, hd, _⟩ := Unsigned.tryEncode_little_ok hwf h1 h2
        (by simpa [avail, availLittle] using h3)
      exact ⟨d, hd⟩
    · obtain ⟨d, hd, _⟩ := Unsigned.tryEncode_big_ok hwf h1 h2
        (by simpa [avail, availBig] using h3)
      exact ⟨d, hd⟩
  · intro sig data v hwf h1 h2 h3
    obtain ⟨st, L, f, o, e⟩ := sig
    cases e
    · obtain ⟨d, hd, _⟩ := Signed.encode_little_ok hwf h1 h2
        (by simpa [avail, availLittle] using h3)
      exact ⟨d, hd⟩
    · obtain ⟨d, hd, _⟩ := Signed.encode_big_ok hwf h1 h2
        (by simpa [avail, availBig] using h3)
      exact ⟨d, hd⟩

/-- Witness for C10 at the spec encode scenarios. -/
theorem C10_witness :
    (∃ d, Unsigned.tryEncode ⟨3, 8, 1, 0, Endian.Big⟩ [0xA0, 0x0B] 254 = .ok d) ∧
    (∃ d, Signed.tryEncode ⟨0, 8, 1, 0, Endian.Little⟩ [0] (-128) = .ok d) := by
  constructor
  · apply C10_encode_totality.1 ⟨3, 8, 1, 0, Endian.Big⟩ [0xA0, 0x0B] 254 (by decide)
    · show (0 : ℚ) ≤ 254
      norm_num
    · show (254 : ℚ) ≤ (mask 8 0 : ℕ) * 1 + 0
      rw [show mask 8 0 = 255 from by decide]
      norm_num
    · simp [avail, availBig]
  · apply C10_encode_totality.2 ⟨0, 8, 1, 0, Endian.Little⟩ [0] (-128) (by decide)
    · show (i64OfPat (mask (64 - 8 + 1) (8 - 1)) : ℚ) * 1 + 0 ≤ -128
      rw [signedMin_eq (by norm_num) (by norm_num)]
      norm_num
    · show (-128 : ℚ) ≤ (mask (8 - 1) 0 : ℕ) * 1 + 0
      rw [show mask (8 - 1) 0 = 127 from by decide]
      norm_num
    · simp [avail, availLittle]

/-- C6: whenever `try_encode` returns `Ok`, every bit of the buffer outside
the declared bit span (the single bit `start` for `Bit`; the `length`
positions assigned by the addressing model for `Unsigned`/`Signed`) holds
the same value after the call as before it. -/
theorem C6_encode_preserves_outside_span :
    (∀ (sig : Bit) (data d : List ℕ) (b : Bool),
      sig.tryEncode data b = .ok d →
      ∀ pos, pos ≠ sig.start → bufBit d pos = bufBit data pos) ∧
    (∀ (sig : Unsigned) (data d : List ℕ) (v : ℚ),
      sig.tryEncode data v = .ok d →
      ∀ pos, ¬span sig.endian sig.start sig.length pos →
        bufBit d pos = bufBit data pos) ∧
    (∀ (sig : Signed) (data d : List ℕ) (v : ℚ),
      sig.tryEncode data v = .ok d →
      ∀ pos, ¬span sig.endian sig.start sig.length pos →
        bufBit d pos = bufBit data pos) := by
  refine ⟨?_, ?_, ?_⟩
  · intro sig data d b hok pos hpos
    obtain ⟨-, -, hbits⟩ := Bit.tryEncode_spec hok
    rw [hbits pos, if_neg hpos]
  · intro sig data d v hok pos hpos
    obtain ⟨st, L, f, o, e⟩ := sig
    cases e
    · have hw := Unsigned.tryEncode_little_inv hok
      obtain ⟨-, -, hbits⟩ := writeBitsLittle_spec L st _ data d hw
      simp only [span] at hpos
      rw [hbits pos, if_neg (by unfold spanLittle at hpos; omega)]
    · have hw := Unsigned.tryEncode_big_inv hok
      obtain ⟨-, -, hbits⟩ := writeBitsBig_spec _ L st data d hw
      simp only [span] at hpos
      rw [hbits pos, if_neg (by unfold spanBig at hpos; omega)]
  · intro sig data d v hok pos hpos
    obtain ⟨st, L, f, o, e⟩ := sig
    cases e
    · have hw := Signed.encode_little_inv hok
      obtain ⟨-, -, hbits⟩ := writeBitsLittle_spec L st _ data d hw
      simp only [span] at hpos
      rw [hbits pos, if_neg (by unfold spanLittle at hpos; omega)]
    · have hw := Signed.encode_big_inv hok
      obtain ⟨-, -, hbits⟩ := writeBitsBig_spec _ L st data d hw
      simp only [span] at hpos
      rw [hbits pos, if_neg (by unfold spanBig at hpos; omega)]

/-- Witness for C6: the spec scenario `Unsigned::new(3, 8, 1.0, 0.0, Big)`
encoding 255.0 into `[0xA0, 0x0B]`; bit 5 of byte 0 and bit 1 of byte 1 lie
outside the span and are preserved. -/
theorem C6_witness :
    ∀ pos, ¬span Endian.Big 3 8 pos →
      bufBit [0xAF, 0xFB] pos = bufBit [0xA0, 0x0B] pos := by
  have henc : Unsigned.tryEncode ⟨3, 8, 1, 0, Endian.Big⟩ [0xA0, 0x0B] 255 = .ok [0xAF, 0xFB] := by
    have hraw : unsignedRawPat ⟨3, 8, 1, 0, Endian.Big⟩ 255 = 255 := by
      unfold unsignedRawPat
      simp only
      rw [show ((255 : ℚ) - 0) / 1 = ((255 : ℕ) : ℚ) by norm_num, ratTrunc_natCast,
        toU64_of_bounds (by norm_num) (by norm_num), Int.toNat_natCast]
      decide
    have hminOK : ¬(255 : ℚ) < Unsigned.min ⟨3, 8, 1, 0, Endian.Big⟩ := by
      rw [show Unsigned.min ⟨3, 8, 1, 0, Endian.Big⟩ = 0 from rfl]
      norm_num
    have hmaxOK : ¬(255 : ℚ) > Unsigned.max ⟨3, 8, 1, 0, Endian.Big⟩ := by
      rw [show Unsigned.max ⟨3, 8, 1, 0, Endian.Big⟩ = ((mask 8 0 : ℕ) : ℚ) * 1 + 0 from rfl,
        show mask 8 0 = 255 from by decide]
      norm_num
    simp only [Unsigned.tryEncode]
    rw [if_neg hminOK, if_neg hmaxOK, if_neg (by decide), hraw,
      show writeBitsBig 255 8 3 [0xA0, 0x0B] = some [0xAF, 0xFB] from by decide]
  exact C6_encode_preserves_outside_span.2.1 ⟨3, 8, 1, 0, Endian.Big⟩ [0xA0, 0x0B]
    [0xAF, 0xFB] 255 henc

/-- C1 amended: for `factor = 1`, `offset = 0` and an integral value in the
descriptor's `[min, max]` range, `try_encode` followed by `try_decode` on a
buffer passing the availability check succeeds and returns the value
exactly, provided the byte span fits the 8-byte decode window
(`start % 8 + length ≤ 64` for Little, `(7 - start % 8) + length ≤ 64` for
Big) and, for Big, the decode extraction is aligned with the encode-side bit
walk (`8 ∣ 2 * (7 - start % 8) + length`). -/
theorem C1_roundtrip_exact :
    (∀ (st L v : ℕ) (data : List ℕ), ByteWF data → 1 ≤ L → L ≤ 64 → v < 2 ^ L →
      st + L ≤ 8 * data.length → st % 8 + L ≤ 64 →
      ∃ d, Unsigned.tryEncode ⟨st, L, 1, 0, Endian.Little⟩ data (v : ℚ) = .ok d ∧
        Unsigned.tryDecode ⟨st, L, 1, 0, Endian.Little⟩ d = .ok (v : ℚ)) ∧
    (∀ (st L v : ℕ) (data : List ℕ), ByteWF data → 1 ≤ L → L ≤ 64 → v < 2 ^ L →
      (7 - st % 8) + 8 * (st / 8) + L ≤ 8 * data.length → (7 - st % 8) + L ≤ 64 →
      (2 * (7 - st % 8) + L) % 8 = 0 →
      ∃ d, Unsigned.tryEncode ⟨st, L, 1, 0, Endian.Big⟩ data (v : ℚ) = .ok d ∧
        Unsigned.tryDecode ⟨st, L, 1, 0, Endian.Big⟩ d = .ok (v : ℚ)) ∧
    (∀ (st L : ℕ) (v : ℤ) (data : List ℕ), ByteWF data → 1 ≤ L → L ≤ 64 →
      -(2 ^ (L - 1)) ≤ v → v < 2 ^ (L - 1) →
      st + L ≤ 8 * data.length → st % 8 + L ≤ 64 →
      ∃ d, Signed.tryEncode ⟨st, L, 1, 0, Endian.Little⟩ data (v : ℚ) = .ok d ∧
        Signed.tryDecode ⟨st, L, 1, 0, Endian.Little⟩ d = .ok (v : ℚ)) ∧
    (∀ (st L : ℕ) (v : ℤ) (data : List ℕ), ByteWF data → 1 ≤ L → L ≤ 64 →
      -(2 ^ (L - 1)) ≤ v → v < 2 ^ (L - 1) →
      (7 - st % 8) + 8 * (st / 8) + L ≤ 8 * data.length → (7 - st % 8) + L ≤ 64 →
      (2 * (7 - st % 8) + L) % 8 = 0 →
      ∃ d, Signed.tryEncode ⟨st, L, 1, 0, Endian.Big⟩ data (v : ℚ) = .ok d ∧
        Signed.tryDecode ⟨st, L, 1, 0, Endian.Big⟩ d = .ok (v : ℚ)) := by
  exact ⟨fun st L v data hwf h1 h2 h3 h4 h5 => unsigned_roundtrip_little hwf h1 h2 h3 h4 h5,
    fun st L v data hwf h1 h2 h3 h4 h5 h6 => unsigned_roundtrip_big hwf h1 h2 h3 h4 h5 h6,
    fun st L v data hwf h1 h2 h3 h4 h5 h6 => signed_roundtrip_little hwf h1 h2 h3 h4 h5 h6,
    fun st L v data hwf h1 h2 h3 h4 h5 h6 h7 => signed_roundtrip_big hwf h1 h2 h3 h4 h5 h6 h7⟩

/-- Witness for C1 at the spec scenario `Unsigned::new(3, 8, 1.0, 0.0, Big)`
with value 255 over `[0, 0]`. -/
theorem C1_witness :
    ∃ d, Unsigned.tryEncode ⟨3, 8, 1, 0, Endian.Big⟩ [0, 0] ((255 : ℕ) : ℚ) = .ok d ∧
      Unsigned.tryDecode ⟨3, 8, 1, 0, Endian.Big⟩ d = .ok ((255 : ℕ) : ℚ) :=
  C1_roundtrip_exact.2.1 3 8 255 [0, 0] (by decide) (by norm_num) (by norm_num) (by norm_num)
    (by norm_num) (by norm_num) (by norm_num)

/-- C5 counterexample: for `Signed::new(0, 8, 2.0, 0.0, Little)` and the
in-range value -3.0, the quotient `(value - offset) / factor = -1.5` is
negative and non-integral; the code truncates toward zero and writes the
two's-complement byte 255 (raw -1), while the claimed
`floor((value - offset) / factor) = -2` would write byte 254. -/
theorem C5_trunc_vs_floor_counterexample :
    Signed.tryEncode ⟨0, 8, 2, 0, Endian.Little⟩ [0] (-3) = .ok [255] ∧
    (⌊((-3 : ℚ) - 0) / 2⌋ : ℤ) = -2 ∧
    ((-2 : ℤ) % (2 ^ 8 : ℤ)).toNat = 254 ∧ (254 : ℕ) ≠ 255 := by
  have hq : ((-3 : ℚ) - 0) / 2 = -3 / 2 := by ring
  refine ⟨?_, ?_, by decide, by norm_num⟩
  · have htr : ratTrunc (((-3 : ℚ) - 0) / 2) = -1 := by
      rw [ratTrunc, if_neg (by rw [hq]; norm_num), hq, Int.ceil_eq_iff]
      constructor <;> norm_num
    have hraw : signedRawPat ⟨0, 8, 2, 0, Endian.Little⟩ (-3) = 255 := by
      rw [signedRawPat_emod (by norm_num) (by norm_num) (by rw [htr]; norm_num)
        (by rw [htr]; norm_num), htr]
      decide
    have hminOK : ¬(-3 : ℚ) < Signed.min ⟨0, 8, 2, 0, Endian.Little⟩ := by
      rw [show Signed.min ⟨0, 8, 2, 0, Endian.Little⟩ =
        ((i64OfPat (mask (64 - 8 + 1) (8 - 1)) : ℤ) : ℚ) * 2 + 0 from rfl,
        signedMin_eq (by norm_num) (by norm_num)]
      norm_num
    have hmaxOK : ¬(-3 : ℚ) > Signed.max ⟨0, 8, 2, 0, Endian.Little⟩ := by
      rw [show Signed.max ⟨0, 8, 2, 0, Endian.Little⟩ =
        ((mask (8 - 1) 0 : ℕ) : ℚ) * 2 + 0 from rfl,
        show mask (8 - 1) 0 = 127 from by decide]
      norm_num
    simp only [Signed.tryEncode]
    rw [if_neg hminOK, if_neg hmaxOK, if_neg (by decide), hraw,
      show writeBitsLittle 0 255 8 [0] = some [255] from by decide]
  · rw [hq, Int.floor_eq_iff]
    constructor <;> norm_num

/-- C5 amended: both encode paths compute the raw integer by truncating
`(value - offset) / factor` toward zero before masking: for Unsigned every
in-range value gives a non-negative quotient, so the truncation agrees with
the claimed floor, while for Signed of length at least 2 the raw pattern is
the two's-complement residue of the truncation (at length 1 the release-mode
`Signed::max` wraps to `(2 ^ 64 - 1) * factor + offset`, admitting in-range
values whose quotient saturates the `as i64` cast, so no residue form holds
there); the truncation agrees with the floor exactly on non-negative or
integral quotients. -/
theorem C5_encode_raw_truncation :
    (∀ (sig : Unsigned) (v : ℚ), 1 ≤ sig.length → sig.length ≤ 64 →
      sig.min ≤ v → v ≤ sig.max →
      unsignedRawPat sig v =
        (⌊(v - sig.offset) / sig.factor⌋).toNat &&& mask sig.length 0) ∧
    (∀ (sig : Signed) (v : ℚ), 2 ≤ sig.length → sig.length ≤ 64 →
      sig.min ≤ v → v ≤ sig.max →
      signedRawPat sig v =
        ((ratTrunc ((v - sig.offset) / sig.factor)) % (2 ^ sig.length : ℤ)).toNat) ∧
    (∀ q : ℚ, 0 ≤ q ∨ q.den = 1 → ratTrunc q = ⌊q⌋) := by
  have htoU64 : ∀ z : ℤ, z ≤ 2 ^ 64 - 1 → toU64 z = z.toNat := by
    intro z hz
    unfold toU64
    by_cases h0 : z < 0
    · rw [if_pos h0]
      omega
    · rw [if_neg h0, if_neg (by omega)]
  refine ⟨?_, ?_, fun q h => ratTrunc_eq_floor h⟩
  · intro sig v hL1 hL hmin hmax
    obtain ⟨st, L, f, o, e⟩ := sig
    simp only at hL1 hL hmin hmax ⊢
    rw [show Unsigned.min ⟨st, L, f, o, e⟩ = o from rfl] at hmin
    rw [show Unsigned.max ⟨st, L, f, o, e⟩ = ((mask L 0 : ℕ) : ℚ) * f + o from rfl,
      mask_zero_eq hL1 hL] at hmax
    have hM : ((2 ^ L - 1 : ℕ) : ℚ) = (2 : ℚ) ^ L - 1 := by
      rw [Nat.cast_sub Nat.one_le_two_pow]
      push_cast
      rfl
    have hMpos : (0 : ℚ) < ((2 ^ L - 1 : ℕ) : ℚ) := by
      rw [hM]
      have : (1 : ℚ) < 2 ^ L := by
        calc (1 : ℚ) < 2 ^ 1 := by norm_num
          _ ≤ 2 ^ L := by
            apply pow_le_pow_right₀ (by norm_num) hL1
      linarith
    unfold unsignedRawPat
    simp only
    rcases lt_trichotomy f 0 with hf | hf | hf
    · exfalso
      nlinarith
    · subst hf
      rw [div_zero]
      rw [show ratTrunc 0 = ⌊(0 : ℚ)⌋ from ratTrunc_eq_floor (Or.inl le_rfl)]
      rw [htoU64 _ (by norm_num [Int.floor_zero])]
    · have hq0 : 0 ≤ (v - o) / f := div_nonneg (by linarith) (le_of_lt hf)
      rw [ratTrunc_eq_floor (Or.inl hq0)]
      have hqle : (v - o) / f ≤ ((2 ^ L - 1 : ℕ) : ℚ) := by
        rw [div_le_iff₀ hf]
        linarith
      have hfl : ⌊(v - o) / f⌋ ≤ ((2 ^ L - 1 : ℕ) : ℤ) := by
        calc ⌊(v - o) / f⌋ ≤ ⌊((2 ^ L - 1 : ℕ) : ℚ)⌋ := Int.floor_le_floor hqle
          _ = ((2 ^ L - 1 : ℕ) : ℤ) := Int.floor_natCast _
      have hbound : ⌊(v - o) / f⌋ ≤ 2 ^ 64 - 1 := by
        have h2 : (2 : ℕ) ^ L ≤ 2 ^ 64 := Nat.pow_le_pow_right (by norm_num) hL
        omega
      rw [htoU64 _ hbound]
  · intro sig v hL2 hL hmin hmax
    obtain ⟨st, L, f, o, e⟩ := sig
    simp only at hL2 hL hmin hmax ⊢
    have hL1 : 1 ≤ L := by omega
    rw [show Signed.min ⟨st, L, f, o, e⟩ =
      ((i64OfPat (mask (64 - L + 1) (L - 1)) : ℤ) : ℚ) * f + o from rfl,
      signedMin_eq hL1 hL] at hmin
    rw [show Signed.max ⟨st, L, f, o, e⟩ = ((mask (L - 1) 0 : ℕ) : ℚ) * f + o from rfl,
      mask_zero_eq (by omega) (by omega)] at hmax
    have hcast1 : ((-(2 ^ (L - 1)) : ℤ) : ℚ) = -(2 : ℚ) ^ (L - 1) := by push_cast; rfl
    rw [hcast1] at hmin
    have hMth : ((2 ^ (L - 1) - 1 : ℕ) : ℚ) = (2 : ℚ) ^ (L - 1) - 1 := by
      rw [Nat.cast_sub Nat.one_le_two_pow]
      push_cast
      rfl
    rw [hMth] at hmax
    have hP1 : (1 : ℚ) ≤ 2 ^ (L - 1) := by
      have := pow_le_pow_right₀ (show (1 : ℚ) ≤ 2 by norm_num) (Nat.zero_le (L - 1))
      simpa using this
    have htrb : -(2 ^ 63) ≤ ratTrunc ((v - o) / f) ∧ ratTrunc ((v - o) / f) ≤ 2 ^ 63 - 1 := by
      have hPleQ : (2 : ℚ) ^ (L - 1) ≤ 2 ^ 63 := by
        have := pow_le_pow_right₀ (show (1 : ℚ) ≤ 2 by norm_num) (show L - 1 ≤ 63 by omega)
        exact this
      rcases lt_trichotomy f 0 with hf | hf | hf
      · exfalso
        nlinarith
      · subst hf
        rw [div_zero]
        rw [show ratTrunc 0 = ⌊(0 : ℚ)⌋ from ratTrunc_eq_floor (Or.inl le_rfl),
          Int.floor_zero]
        norm_num
      · have hlo : -((2 : ℚ) ^ (L - 1)) ≤ (v - o) / f := by
          rw [le_div_iff₀ hf]
          nlinarith
        have hhi : (v - o) / f ≤ (2 : ℚ) ^ (L - 1) - 1 := by
          rw [div_le_iff₀ hf]
          nlinarith
        constructor
        · apply le_ratTrunc
          calc ((-(2 ^ 63) : ℤ) : ℚ) = -(2 : ℚ) ^ 63 := by push_cast; rfl
            _ ≤ -((2 : ℚ) ^ (L - 1)) := by linarith
            _ ≤ (v - o) / f := hlo
        · apply ratTrunc_le
          calc (v - o) / f ≤ (2 : ℚ) ^ (L - 1) - 1 := hhi
            _ ≤ 2 ^ 63 - 1 := by linarith
            _ = ((2 ^ 63 - 1 : ℤ) : ℚ) := by norm_num
    exact signedRawPat_emod hL1 hL htrb.1 htrb.2

/-- Witness for C5: the Unsigned arm at the spec scenario
`Unsigned::new(0, 8, 1.0, 0.0, Little)` with value 42, the Signed arm at
`Signed::new(0, 8, 1.0, 0.0, Little)` with value -1, and the
truncation-equals-floor fact on the integral quotient -1. -/
theorem C5_witness :
    unsignedRawPat ⟨0, 8, 1, 0, Endian.Little⟩ 42 =
      (⌊((42 : ℚ) - 0) / 1⌋).toNat &&& mask 8 0 ∧
    signedRawPat ⟨0, 8, 1, 0, Endian.Little⟩ (-1) =
      ((ratTrunc (((-1 : ℚ) - 0) / 1)) % (2 ^ 8 : ℤ)).toNat ∧
    ratTrunc (-1 : ℚ) = ⌊(-1 : ℚ)⌋ := by
  refine ⟨?_, ?_, ?_⟩
  · apply C5_encode_raw_truncation.1 ⟨0, 8, 1, 0, Endian.Little⟩ 42 (by norm_num) (by norm_num)
    · show (0 : ℚ) ≤ 42
      norm_num
    · show (42 : ℚ) ≤ (mask 8 0 : ℕ) * 1 + 0
      rw [show mask 8 0 = 255 from by decide]
      norm_num
  · apply C5_encode_raw_truncation.2.1 ⟨0, 8, 1, 0, Endian.Little⟩ (-1) (by norm_num)
      (by norm_num)
    · show (i64OfPat (mask (64 - 8 + 1) (8 - 1)) : ℚ) * 1 + 0 ≤ -1
      rw [signedMin_eq (by norm_num) (by norm_num)]
      norm_num
    · show (-1 : ℚ) ≤ (mask (8 - 1) 0 : ℕ) * 1 + 0
      rw [show mask (8 - 1) 0 = 127 from by decide]
      norm_num
  · exact C5_encode_raw_truncation.2.2 (-1) (Or.inr (by norm_num))

/-- C8 counterexample: for `Signed::new(0, 8, 1.0, 1000.0, Little)` the
buffer `[128]` extracts the raw value 128 with its sign bit set, yet the
decoded scaled result is `-128 * 1 + 1000 = 872`, which is not negative:
the sign of the scaled result also depends on factor and offset, not only
on the raw sign bit. -/
theorem C8_sign_extension_counterexample :
    Signed.tryDecode ⟨0, 8, 1, 1000, Endian.Little⟩ [128] = .ok 872 ∧
    Signed.rawLittle ⟨0, 8, 1, 1000, Endian.Little⟩ [128] = 128 ∧
    Nat.testBit 128 (8 - 1) = true ∧
    ¬((872 : ℚ) < 0) := by
  refine ⟨?_, by decide, by decide, by norm_num⟩
  rw [Signed.decode_little_eq (by norm_num)]
  rw [show i64OfPat (signExtendPat 8
    (Signed.rawLittle ⟨0, 8, 1, 1000, Endian.Little⟩ [128])) = -128 from by decide]
  congr 1
  push_cast
  ring

/-- C8 amended: for every Signed descriptor and buffer passing the
availability check, the decode is the affine scaling of the sign-extended
raw value: `2 ^ length` is subtracted exactly when bit `length - 1` of the
extracted raw value is set; and the resulting scaled value is negative
(resp. non-negative) under the sign bit exactly when, additionally,
`0 < factor` and `offset = 0`. -/
theorem C8_signed_sign_extension :
    (∀ (st L : ℕ) (f o : ℚ) (data : List ℕ), 1 ≤ L → L ≤ 64 →
      st + L ≤ 8 * data.length →
      Signed.tryDecode ⟨st, L, f, o, Endian.Little⟩ data =
        .ok ((((if (Signed.rawLittle ⟨st, L, f, o, Endian.Little⟩ data).testBit (L - 1)
            then ((Signed.rawLittle ⟨st, L, f, o, Endian.Little⟩ data : ℕ) : ℤ) - 2 ^ L
            else ((Signed.rawLittle ⟨st, L, f, o, Endian.Little⟩ data : ℕ) : ℤ)) : ℤ) : ℚ)
          * f + o)) ∧
    (∀ (st L : ℕ) (f o : ℚ) (data : List ℕ), 1 ≤ L → L ≤ 64 →
      (7 - st % 8) + 8 * (st / 8) + L ≤ 8 * data.length →
      Signed.tryDecode ⟨st, L, f, o, Endian.Big⟩ data =
        .ok ((((if (Signed.rawBig ⟨st, L, f, o, Endian.Big⟩ data).testBit (L - 1)
            then ((Signed.rawBig ⟨st, L, f, o, Endian.Big⟩ data : ℕ) : ℤ) - 2 ^ L
            else ((Signed.rawBig ⟨st, L, f, o, Endian.Big⟩ data : ℕ) : ℤ)) : ℤ) : ℚ)
          * f + o)) ∧
    (∀ (L raw : ℕ) (f : ℚ), 1 ≤ L → raw < 2 ^ L → 0 < f →
      (raw.testBit (L - 1) = true →
        (((if raw.testBit (L - 1) then ((raw : ℕ) : ℤ) - 2 ^ L
          else ((raw : ℕ) : ℤ)) : ℤ) : ℚ) * f + 0 < 0) ∧
      (raw.testBit (L - 1) = false →
        0 ≤ (((if raw.testBit (L - 1) then ((raw : ℕ) : ℤ) - 2 ^ L
          else ((raw : ℕ) : ℤ)) : ℤ) : ℚ) * f + 0)) := by
  refine ⟨?_, ?_, ?_⟩
  · intro st L f o data hL1 hL hav
    rw [Signed.decode_little_eq hav,
      signExtendPat_eq hL1 hL (Signed.rawLittle_lt hL1 hL)]
  · intro st L f o data hL1 hL hav
    rw [Signed.decode_big_eq hav,
      signExtendPat_eq hL1 hL (Signed.rawBig_lt hL1 hL)]
  · intro L raw f hL1 hraw hf
    constructor
    · intro hb
      rw [if_pos hb]
      have h1 : ((raw : ℤ) - 2 ^ L : ℤ) < 0 := by
        have : (raw : ℤ) < 2 ^ L := by exact_mod_cast hraw
        omega
      have h2 : (((raw : ℤ) - 2 ^ L : ℤ) : ℚ) < 0 := by exact_mod_cast h1
      have := mul_neg_of_neg_of_pos h2 hf
      linarith
    · intro hb
      rw [if_neg (by simp [hb])]
      have h2 : (0 : ℚ) ≤ (((raw : ℕ) : ℤ) : ℚ) := by positivity
      have := mul_nonneg h2 hf.le
      linarith

/-- Witness for C8: the little arm at `Signed::new(0, 8, 1.0, 0.0, Little)`
on `[128]` (raw 128, sign bit set, decodes to -128) and the sign statement
at `L = 8`, `raw = 128`, `factor = 1`. -/
theorem C8_witness :
    Signed.tryDecode ⟨0, 8, 1, 0, Endian.Little⟩ [128] = .ok (-128) ∧
    (((if (128 : ℕ).testBit (8 - 1) then ((128 : ℕ) : ℤ) - 2 ^ 8
      else ((128 : ℕ) : ℤ)) : ℤ) : ℚ) * 1 + 0 < 0 := by
  constructor
  · have h := C8_signed_sign_extension.1 0 8 1 0 [128] (by norm_num) (by norm_num)
      (by norm_num)
    rw [h, show Signed.rawLittle ⟨0, 8, 1, 0, Endian.Little⟩ [128] = 128 from by decide,
      if_pos (by decide)]
    congr 1
    push_cast
    ring
  · exact (C8_signed_sign_extension.2.2 8 128 1 (by norm_num) (by norm_num)
      (by norm_num)).1 (by decide)

/-- Witness for C4 at the spec decode scenarios that fail availability. -/
theorem C4_witness :
    Bit.tryDecode ⟨8⟩ [0b11110010] = .error () ∧
    Unsigned.tryDecode ⟨0, 9, 2, 1337, Endian.Little⟩ [0b00001111] =
      .error DecodeError.NotEnoughData ∧
    Signed.tryDecode ⟨6, 8, 42, 1337, Endian.Big⟩ [0b00000111] =
      .error DecodeError.NotEnoughData := by
  refine ⟨C4_decode_not_enough_data.1 ⟨8⟩ [0b11110010] (by norm_num),
    C4_decode_not_enough_data.2.2.1 ⟨0, 9, 2, 1337, Endian.Little⟩ [0b00001111] rfl
      (by norm_num),
    C4_decode_not_enough_data.2.2.2.2.2 ⟨6, 8, 42, 1337, Endian.Big⟩ [0b00000111] rfl
      (by norm_num)⟩

end Cantools
